import Mathlib

/-!
Verification development for the commit-graph layout engine of the
`should-i-git` repository.  The definitions below are a shallow embedding of
`src/components/GitTree.tsx` (ref parsing, `buildTreeStructure`,
`findCommonAncestor`, path construction) and `src/lib/branch-colors.ts`
(`parseBranchRefs`, `createBranchColorMap`).  JavaScript strings are modelled
as Lean `String` values manipulated at the character level so that every
definition is executable by the kernel; JavaScript numbers used for geometry
are modelled as rationals.
-/

namespace ShouldIGit

/-! ### Character-level models of the JavaScript string operations -/

/-- Whitespace characters removed by `String.prototype.trim` (the common ones;
the source only ever trims spaces around ref names and parent hashes). -/
def wsChar (c : Char) : Bool := c = ' ' || c = '\t' || c = '\n' || c = '\r'

/-- Model of `s.trim()`. -/
def jsTrim (s : String) : String :=
  ⟨((s.data.dropWhile wsChar).reverse.dropWhile wsChar).reverse⟩

/-- `l₁` is a leading segment of `l₂`. -/
def leadsChars : List Char → List Char → Bool
  | [], _ => true
  | _ :: _, [] => false
  | a :: as, b :: bs => a = b && leadsChars as bs

/-- Worker for `jsSplit`: scans left to right, cutting at each leftmost,
non-overlapping occurrence of the (non-empty) separator `sep0 :: sepRest`.
The fuel argument is set to `length + 1` by the caller, which is enough for
the scan to finish, since every step consumes at least one character. -/
def splitWorker (sep0 : Char) (sepRest : List Char) :
    Nat → List Char → List Char → List (List Char)
  | 0, acc, rest => [acc.reverse ++ rest]
  | _ + 1, acc, [] => [acc.reverse]
  | fuel + 1, acc, c :: cs =>
    if leadsChars (sep0 :: sepRest) (c :: cs) then
      acc.reverse :: splitWorker sep0 sepRest fuel [] (cs.drop sepRest.length)
    else
      splitWorker sep0 sepRest fuel (c :: acc) cs

/-- Model of `s.split(sep)` for a non-empty separator (the source only splits
on `","`, `" "` and `" -> "`). -/
def jsSplit (s : String) (sep : String) : List String :=
  match sep.data with
  | [] => [s]
  | c :: cs => (splitWorker c cs (s.data.length + 1) [] s.data).map String.mk

/-- Model of `s.endsWith(suffix)`. -/
def jsEndsWith (s suffix : String) : Bool :=
  leadsChars suffix.data.reverse s.data.reverse

/-- Model of `s.startsWith(pre)`. -/
def jsStartsWith (s pre : String) : Bool :=
  leadsChars pre.data s.data

/-- Model of `s.includes(c)` for a single character. -/
def jsHasChar (s : String) (c : Char) : Bool :=
  s.data.any (fun x => x = c)

/-- Model of `s.substring(n)`. -/
def jsDropChars (s : String) (n : Nat) : String :=
  ⟨s.data.drop n⟩

/-- Model of `s.length` (code points; the refs in scope are ASCII). -/
def jsLength (s : String) : Nat := s.data.length

/-- Lexicographic comparison of character lists, the order used by the
JavaScript default `Array.prototype.sort` on strings. -/
def lexLe : List Char → List Char → Bool
  | [], _ => true
  | _ :: _, [] => false
  | a :: as, b :: bs =>
    if a < b then true
    else if b < a then false
    else lexLe as bs

/-- Lexicographic order on strings as a Bool. -/
def strLe (a b : String) : Bool := lexLe a.data b.data

/-- Lexicographic order on strings as a proposition (for the sort lemmas). -/
def strLeP (a b : String) : Prop := strLe a b = true

instance : DecidableRel strLeP := fun a b =>
  inferInstanceAs (Decidable (strLe a b = true))

theorem lexLe_total (x y : List Char) : lexLe x y = true ∨ lexLe y x = true := by
  induction x generalizing y with
  | nil => exact Or.inl rfl
  | cons a as ih =>
    cases y with
    | nil => exact Or.inr rfl
    | cons b bs =>
      by_cases hab : a < b
      · left; simp [lexLe, hab]
      · by_cases hba : b < a
        · right; simp [lexLe, hba, hab]
        · rcases ih bs with h | h
          · left; simp [lexLe, hab, hba, h]
          · right; simp [lexLe, hab, hba, h]

theorem lexLe_trans {x y z : List Char} (hxy : lexLe x y = true)
    (hyz : lexLe y z = true) : lexLe x z = true := by
  induction x generalizing y z with
  | nil => rfl
  | cons a as ih =>
    cases y with
    | nil => simp [lexLe] at hxy
    | cons b bs =>
      cases z with
      | nil => simp [lexLe] at hyz
      | cons c cs =>
        by_cases hab : a < b <;> by_cases hbc : b < c
        all_goals simp only [lexLe, hab, hbc, if_pos, if_neg, if_true, if_false] at hxy hyz ⊢
        · have hac : a < c := lt_trans hab hbc
          simp [hac]
        · by_cases hcb : c < b
          · simp [hcb] at hyz
          · have hbc' : b = c := le_antisymm (not_lt.mp hcb) (not_lt.mp hbc)
            subst hbc'
            simp [hab]
        · by_cases hba : b < a
          · simp [hba] at hxy
          · have hba' : a = b := le_antisymm (not_lt.mp hba) (not_lt.mp hab)
            subst hba'
            simp [hbc]
        · by_cases hba : b < a
          · simp [hba] at hxy
          · by_cases hcb : c < b
            · simp [hcb] at hyz
            · have h1 : a = b := le_antisymm (not_lt.mp hba) (not_lt.mp hab)
              have h2 : b = c := le_antisymm (not_lt.mp hcb) (not_lt.mp hbc)
              subst h1; subst h2
              simp only [lt_irrefl, if_false] at hxy hyz ⊢
              exact ih hxy hyz

theorem lexLe_antisymm {x y : List Char} (hxy : lexLe x y = true)
    (hyx : lexLe y x = true) : x = y := by
  induction x generalizing y with
  | nil =>
    cases y with
    | nil => rfl
    | cons b bs => simp [lexLe] at hyx
  | cons a as ih =>
    cases y with
    | nil => simp [lexLe] at hxy
    | cons b bs =>
      by_cases hab : a < b
      · exfalso
        have : ¬ b < a := lt_asymm hab
        simp [lexLe, this, hab] at hyx
      · by_cases hba : b < a
        · exfalso; simp [lexLe, hab, hba] at hxy
        · have hEq : a = b := le_antisymm (not_lt.mp hba) (not_lt.mp hab)
          subst hEq
          simp only [lexLe, lt_irrefl, if_false] at hxy hyx
          exact congrArg (a :: ·) (ih hxy hyx)

instance : IsTotal String strLeP := ⟨fun a b => lexLe_total a.data b.data⟩

instance : IsTrans String strLeP :=
  ⟨fun _ _ _ hab hbc => lexLe_trans hab hbc⟩

instance : IsAntisymm String strLeP :=
  ⟨fun a b hab hba => by
    cases a with
    | mk da =>
      cases b with
      | mk db => exact congrArg String.mk (lexLe_antisymm hab hba)⟩

/-- The sort applied by both parsers (`[...new Set(branches)].sort()`). -/
def sortStrings (l : List String) : List String :=
  l.insertionSort strLeP

/-! ### Ref parsing

Two distinct parsers exist in the source: `parseBranchRefs` in
`GitTree.tsx` (lines 48-76) and `parseBranchRefs` in `branch-colors.ts`
(lines 33-81).  Both are embedded, with the common tokenisation factored out.
-/

/-- The token list `refs.split(',').map(trim).filter(length > 0)`, shared by
both parsers. -/
def refsTokens (refs : String) : List String :=
  ((jsSplit refs ",").map jsTrim).filter (fun r => jsLength r > 0)

/-- The name a token contributes before local-branch filtering: the trimmed
target of a `"a -> b"` token, the token itself otherwise.  Mirrors
`ref.split(' -> ')[1].trim()` guarded by `ref.includes(' -> ')` (a string
contains `" -> "` exactly when splitting on it yields at least two parts). -/
def arrowTarget (r : String) : Option String :=
  let parts := jsSplit r " -> "
  if parts.length ≥ 2 then some (jsTrim ((parts.get? 1).getD "")) else none

/-- The collection loop of `GitTree.tsx`'s `parseBranchRefs` (lines 60-73),
producing pushed branch names in order. -/
def collectTreeBranches : List String → List String
  | [] => []
  | r :: rest =>
    if r = "HEAD" || jsEndsWith r " -> HEAD" then collectTreeBranches rest
    else
      match arrowTarget r with
      | some branchName =>
        if branchName ≠ "" && branchName ≠ "HEAD" && !(jsHasChar branchName '/') then
          branchName :: collectTreeBranches rest
        else collectTreeBranches rest
      | none =>
        if !(jsHasChar r '/') then r :: collectTreeBranches rest
        else collectTreeBranches rest

/-- `parseBranchRefs` of `GitTree.tsx` (lines 48-76): tokenise, collect local
branch names, deduplicate and sort.  (`List.dedup` keeps one copy of each
name, as `new Set` does; the order difference is erased by the sort.) -/
def parseBranchRefs (refs : String) : List String :=
  if jsTrim refs = "" then []
  else sortStrings (collectTreeBranches (refsTokens refs)).dedup

/-- The collection loop of `branch-colors.ts`'s `parseBranchRefs`
(lines 46-78), carrying the `seenLocalBranches` set; strips an `origin/`
qualifier from remote-tracking names. -/
def collectColorBranches : List String → List String → List String
  | [], _ => []
  | r :: rest, seen =>
    if r = "HEAD" || jsEndsWith r " -> HEAD" then collectColorBranches rest seen
    else
      let branchName := match arrowTarget r with
        | some t => t
        | none => r
      if (arrowTarget r).isSome && branchName = "HEAD" then
        collectColorBranches rest seen
      else if branchName = "" then collectColorBranches rest seen
      else
        let localName := if jsStartsWith branchName "origin/" then
            jsDropChars branchName 7
          else branchName
        if !(jsHasChar localName '/') && localName ≠ "HEAD"
            && !(seen.contains localName) then
          localName :: collectColorBranches rest (localName :: seen)
        else collectColorBranches rest seen

/-- `parseBranchRefs` of `branch-colors.ts` (lines 33-81). -/
def parseBranchRefsColors (refs : String) : List String :=
  if jsTrim refs = "" then []
  else sortStrings (collectColorBranches (refsTokens refs) []).dedup

/-! ### Shared constants and raw commit records -/

/-- The fixed palette (`BRANCH_COLORS`), identical in both source files. -/
def BRANCH_COLORS : List String :=
  ["#3b82f6", "#ef4444", "#10b981", "#f59e0b", "#8b5cf6",
   "#ec4899", "#06b6d4", "#84cc16", "#f97316", "#6366f1"]

/-- An input record: `{ commit, parent, refs }` as supplied to `GitTree` and
`createBranchColorMap`. -/
structure RawCommit where
  commit : String
  parent : String
  refs : String
deriving DecidableEq, Repr

/-- `parent.split(' ').filter(p => p.trim())`: the parent id list of a
commit. -/
def splitParents (parent : String) : List String :=
  (jsSplit parent " ").filter (fun p => jsTrim p ≠ "")

/-! ### Association lists modelling the JavaScript `Map`s

Insertion order is preserved (as `Map` iteration order is); `alSet` replaces
an existing binding in place and appends a fresh one, `alUpdate` mutates an
existing binding and is the image of `nodes.get(k)!.field = v`. -/

def alGet {α : Type} : List (String × α) → String → Option α
  | [], _ => none
  | (k', v) :: rest, k => if k' = k then some v else alGet rest k

def alHas {α : Type} (m : List (String × α)) (k : String) : Bool :=
  (alGet m k).isSome

def alSet {α : Type} : List (String × α) → String → α → List (String × α)
  | [], k, v => [(k, v)]
  | (k', v') :: rest, k, v =>
    if k' = k then (k', v) :: rest else (k', v') :: alSet rest k v

def alUpdate {α : Type} : List (String × α) → String → (α → α) → List (String × α)
  | [], _, _ => []
  | (k', v) :: rest, k, f =>
    if k' = k then (k', f v) :: rest else (k', v) :: alUpdate rest k f

/-- The key list of an association list. -/
def alKeys {α : Type} (m : List (String × α)) : List String := m.map Prod.fst

/-! ### The graph classifier: `buildTreeStructure` (`GitTree.tsx` 81-266) -/

/-- Per-commit node state (`CommitNode`). -/
structure CommitNode where
  commit : String
  parent : String
  branchRefs : List String
  index : Nat
  lane : Nat
  isOnMainLine : Bool
deriving DecidableEq, Repr

/-- A lane/color entry (`BranchColor`). -/
structure BranchColor where
  branch : String
  color : String
  lane : Nat
deriving DecidableEq, Repr

/-- Node creation (lines 96-106): one `CommitNode` per distinct id, a later
duplicate id overwriting the earlier entry, as `Map.set` does. -/
def createNodes (commits : List RawCommit) : List (String × CommitNode) :=
  commits.enum.foldl
    (fun m ic =>
      alSet m ic.2.commit
        { commit := ic.2.commit, parent := ic.2.parent
          branchRefs := parseBranchRefs ic.2.refs, index := ic.1
          lane := 0, isOnMainLine := false })
    []

/-- The main-branch scan loop (lines 110-119): stops at the first commit
whose parsed refs contain `"main"` or `"master"`. -/
def detectMainScan : List RawCommit → Option String
  | [] => none
  | c :: rest =>
    let brs := parseBranchRefs c.refs
    if brs.contains "main" then some "main"
    else if brs.contains "master" then some "master"
    else detectMainScan rest

/-- Main-branch detection including the fallback of lines 121-125: when the
scan finds nothing, the first branch name of the first commit (or null). -/
def detectMainBranch (commits : List RawCommit) : Option String :=
  match detectMainScan commits with
  | some b => some b
  | none =>
    match commits with
    | [] => none
    | c :: _ => (parseBranchRefs c.refs).head?

/-- The inner enqueue loop shared by all three traversals: a parent is
enqueued (and marked visited) when it is unvisited and has a node
(`!visited.has(parent) && nodes.has(parent)`). -/
def enqueueParents (nodes : List (String × CommitNode)) :
    List String → List String → List String → List String × List String
  | [], vis, q => (vis, q)
  | p :: ps, vis, q =>
    if !(vis.contains p) && alHas nodes p then
      enqueueParents nodes ps (vis ++ [p]) (q ++ [p])
    else enqueueParents nodes ps vis q

/-- The breadth-first worker shared by the main-line marking (lines 136-149),
the backward lane trace (lines 214-232) and `findCommonAncestor`
(lines 318-336).  `stop` is the early-exit test; `stopFirst` is true when the
source checks it before the node lookup (`findCommonAncestor`) and false when
after (the lane trace).  Fuel is threaded explicitly; `bfsFuel` below always
suffices (theorem `shouldIGit_C7_traversals_fuel_stable`). -/
def bfsLoop (nodes : List (String × CommitNode)) (stop : String → Bool)
    (stopFirst : Bool) :
    Nat → List String → List String → Option String × List String
  | 0, vis, _ => (none, vis)
  | _ + 1, vis, [] => (none, vis)
  | fuel + 1, vis, c :: rest =>
    if stopFirst && stop c then (some c, vis)
    else
      match alGet nodes c with
      | none => bfsLoop nodes stop stopFirst fuel vis rest
      | some node =>
        if !stopFirst && stop c then (some c, vis)
        else
          let vq := enqueueParents nodes (splitParents node.parent) vis rest
          bfsLoop nodes stop stopFirst fuel vq.1 vq.2

/-- Fuel that lets every traversal of a given commit list run to completion. -/
def bfsFuel (commits : List RawCommit) : Nat := 2 * commits.length + 3

/-- Main-line marking (lines 127-154).  In the source, `visited` and
`mainLineCommits` receive exactly the same ids (the tip at lines 133-134 and
each enqueued parent at lines 144-146), so the visited list of the traversal
is returned as the main-line set.  With no main branch, every commit is
marked (lines 151-153). -/
def markMainLine (fuel : Nat) (commits : List RawCommit)
    (nodes : List (String × CommitNode)) : Option String → List String
  | some mb =>
    match commits.find? (fun c => (parseBranchRefs c.refs).contains mb) with
    | some tip =>
      (bfsLoop nodes (fun _ => false) false fuel [tip.commit] [tip.commit]).2
    | none => []
  | none => commits.map (fun c => c.commit)

/-- Mutable classifier state threaded through the three assignment loops. -/
structure AssignState where
  nodes : List (String × CommitNode)
  branchColors : List (String × BranchColor)
  commitToLane : List (String × Nat)
  commitToBranch : List (String × String)
  nextLane : Nat
deriving Repr

/-- One step of the tip-assignment loop (lines 157-189). -/
def assignTip (mainBranch : Option String) (st : AssignState) (c : RawCommit) :
    AssignState :=
  match parseBranchRefs c.refs with
  | [] => st
  | primary :: _ =>
    if some primary = mainBranch then
      { st with
        commitToLane := alSet st.commitToLane c.commit 0
        commitToBranch := alSet st.commitToBranch c.commit primary
        nodes := alUpdate st.nodes c.commit
          (fun n => { n with lane := 0, isOnMainLine := true }) }
    else
      let st1 :=
        if alHas st.branchColors primary then st
        else
          { st with
            branchColors := alSet st.branchColors primary
              { branch := primary
                color := BRANCH_COLORS.getD
                  ((st.branchColors.length % (BRANCH_COLORS.length - 1)) + 1) ""
                lane := st.nextLane }
            nextLane := st.nextLane + 1 }
      let lane := match alGet st1.branchColors primary with
        | some bc => bc.lane
        | none => 0
      { st1 with
        commitToLane := alSet st1.commitToLane c.commit lane
        commitToBranch := alSet st1.commitToBranch c.commit primary
        nodes := alUpdate st1.nodes c.commit
          (fun n => { n with lane := lane, isOnMainLine := false }) }

/-- One step of the backward-propagation loop (lines 192-247). -/
def propagate (fuel : Nat) (mainLine : List String) (st : AssignState)
    (c : RawCommit) : AssignState :=
  if alHas st.commitToLane c.commit then st
  else if mainLine.contains c.commit then
    { st with
      commitToLane := alSet st.commitToLane c.commit 0
      nodes := alUpdate st.nodes c.commit
        (fun n => { n with lane := 0, isOnMainLine := true }) }
  else
    match (bfsLoop st.nodes (fun x => alHas st.commitToLane x) false fuel
        [c.commit] [c.commit]).1 with
    | some found =>
      let foundLane := (alGet st.commitToLane found).getD 0
      let foundBranch := alGet st.commitToBranch found
      { st with
        commitToLane := alSet st.commitToLane c.commit foundLane
        commitToBranch := match foundBranch with
          | some b => alSet st.commitToBranch c.commit b
          | none => st.commitToBranch
        nodes := alUpdate st.nodes c.commit
          (fun n => { n with lane := foundLane, isOnMainLine := foundLane = 0 }) }
    | none =>
      { st with
        commitToLane := alSet st.commitToLane c.commit 0
        nodes := alUpdate st.nodes c.commit
          (fun n => { n with lane := 0, isOnMainLine := true }) }

/-- One step of the merge-correction loop (lines 250-263). -/
def mergeCorrect (mainLine : List String) (st : AssignState) (c : RawCommit) :
    AssignState :=
  let parents := splitParents c.parent
  if parents.length > 1 && parents.any (fun p => mainLine.contains p) then
    { st with
      nodes := alUpdate st.nodes c.commit
        (fun n => { n with lane := 0, isOnMainLine := true })
      commitToLane := alSet st.commitToLane c.commit 0 }
  else st

/-- The classifier's result (`{ nodes, branchColors, mainLineCommits }`). -/
structure TreeResult where
  nodes : List (String × CommitNode)
  branchColors : List (String × BranchColor)
  mainLine : List String
deriving Repr

/-- `buildTreeStructure` with explicit traversal fuel. -/
def buildTreeStructureFuel (fuel : Nat) (commits : List RawCommit) : TreeResult :=
  let nodes0 := createNodes commits
  let mainBranch := detectMainBranch commits
  let mainLine := markMainLine fuel commits nodes0 mainBranch
  let st1 := commits.foldl (assignTip mainBranch)
    { nodes := nodes0, branchColors := [], commitToLane := []
      commitToBranch := [], nextLane := 1 }
  let st2 := commits.foldl (propagate fuel mainLine) st1
  let st3 := commits.foldl (mergeCorrect mainLine) st2
  { nodes := st3.nodes, branchColors := st3.branchColors, mainLine := mainLine }

/-- `buildTreeStructure` (lines 81-266), at the canonical fuel. -/
def buildTreeStructure (commits : List RawCommit) : TreeResult :=
  buildTreeStructureFuel (bfsFuel commits) commits

/-! ### The colorer: `createBranchColorMap` (`branch-colors.ts` 87-132) -/

/-- The colorer's own main-branch scan (lines 91-101): same shape as the
classifier's but with the colorer's parser and no fallback. -/
def detectMainScanColors : List RawCommit → Option String
  | [] => none
  | c :: rest =>
    let brs := parseBranchRefsColors c.refs
    if brs.contains "main" then some "main"
    else if brs.contains "master" then some "master"
    else detectMainScanColors rest

/-- `createBranchColorMap` (lines 87-132): processes the commit list in
reverse order, assigning `BRANCH_COLORS[0]` to the main branch and
`BRANCH_COLORS[(size % 9) + 1]` to each newly seen primary branch. -/
def createBranchColorMap (commits : List RawCommit) : List (String × String) :=
  let mainBranch := detectMainScanColors commits
  commits.reverse.foldl
    (fun m c =>
      match parseBranchRefsColors c.refs with
      | [] => m
      | primary :: _ =>
        if alHas m primary then m
        else if some primary = mainBranch then
          alSet m primary (BRANCH_COLORS.getD 0 "")
        else
          alSet m primary
            (BRANCH_COLORS.getD ((m.length % (BRANCH_COLORS.length - 1)) + 1) ""))
    []

/-! ### The path builder (`GitTree.tsx` 292-464 and 511-592)

Geometry is modelled over exact fractions of integers (`Frac`), with the
operations defined so that every computation reduces in the kernel; the
denominators produced by the component's arithmetic are always positive.
`Frac.req` is value equality of fractions (cross multiplication).  The fixed
constants of the component: `laneWidth = 16`, `dotRadius = 3.5`,
`cornerRadius = 8`. -/

structure Frac where
  num : Int
  den : Int
deriving DecidableEq, Repr

instance (n : Nat) : OfNat Frac n := ⟨⟨n, 1⟩⟩

instance : Neg Frac := ⟨fun a => ⟨-a.num, a.den⟩⟩

instance : Add Frac := ⟨fun a b => ⟨a.num * b.den + b.num * a.den, a.den * b.den⟩⟩

instance : Sub Frac := ⟨fun a b => ⟨a.num * b.den - b.num * a.den, a.den * b.den⟩⟩

instance : Mul Frac := ⟨fun a b => ⟨a.num * b.num, a.den * b.den⟩⟩

instance : Div Frac := ⟨fun a b => ⟨a.num * b.den, a.den * b.num⟩⟩

/-- Strict order on fractions (with positive denominators). -/
def Frac.ltb (a b : Frac) : Bool := a.num * b.den < b.num * a.den

/-- Value equality of fractions. -/
def Frac.req (a b : Frac) : Prop := a.num * b.den = b.num * a.den

instance (a b : Frac) : Decidable (Frac.req a b) :=
  inferInstanceAs (Decidable (_ = _))

/-- `Math.min` on fractions. -/
def Frac.fmin (a b : Frac) : Frac := if Frac.ltb a b then a else b

/-- Embedding of a natural number count (a lane index) as a fraction. -/
def Frac.ofNat (n : Nat) : Frac := ⟨n, 1⟩

def laneWidth : Frac := 16

def dotRadius : Frac := ⟨7, 2⟩

def cornerRadius : Frac := 8

/-- One entry of the `commitPositions` array (lines 298-310). -/
structure CommitPos where
  commit : String
  x : Frac
  y : Frac
  lane : Nat
  index : Nat
  isOnMainLine : Bool
deriving DecidableEq, Repr

/-- `commitPositions` (lines 298-310): main-line commits on the central axis,
branch commits offset by `lane * laneWidth`; y from the measured row position
with the `headerHeight + index * 40 + 20` fallback. -/
def commitPositions (commits : List RawCommit)
    (nodes : List (String × CommitNode)) (rowPositions : List Frac)
    (headerHeight width : Frac) : List CommitPos :=
  commits.enum.map (fun ic =>
    let node := alGet nodes ic.2.commit
    let lane : Nat := match node with | some n => n.lane | none => 0
    let isMain : Bool := match node with | some n => n.isOnMainLine | none => true
    let centerX := width / 2
    let x := if isMain then centerX
      else centerX + (if lane > 0 then laneWidth else -laneWidth) * Frac.ofNat lane
    let y := (rowPositions.get? ic.1).getD
      (headerHeight + Frac.ofNat ic.1 * 40 + 20)
    { commit := ic.2.commit, x := x, y := y, lane := lane, index := ic.1
      isOnMainLine := isMain })

/-- Position placeholder for an (unreachable) out-of-range array access. -/
def dummyPos : CommitPos :=
  { commit := "", x := 0, y := 0, lane := 0, index := 0, isOnMainLine := true }

/-- `commitPositions[i]`. -/
def posAt (positions : List CommitPos) (i : Nat) : CommitPos :=
  (positions.get? i).getD dummyPos

/-- One connector record (an entry of `paths`, lines 342-347). -/
structure RenderPath where
  fromPos : CommitPos
  toPos : CommitPos
  branch : String
  color : String
deriving DecidableEq, Repr

/-- The direct parent-child pass (lines 350-390): a connector for each parent
present in the list, only when child and parent share lane and main-line
status. -/
def directEdges (commits : List RawCommit) (nodes : List (String × CommitNode))
    (branchColors : List (String × BranchColor)) (positions : List CommitPos) :
    List RenderPath :=
  commits.enum.foldl
    (fun paths ic =>
      match alGet nodes ic.2.commit with
      | none => paths
      | some node =>
        paths ++ (splitParents ic.2.parent).filterMap (fun parentHash =>
          match commits.findIdx? (fun c2 => c2.commit = parentHash) with
          | none => none
          | some parentIdx =>
            match alGet nodes parentHash with
            | none => none
            | some parentNode =>
              if node.lane = parentNode.lane
                  && node.isOnMainLine = parentNode.isOnMainLine then
                let branch0 := match node.branchRefs.head? with
                  | some b => b
                  | none => (parentNode.branchRefs.head?).getD ""
                let branch := if branch0 = "" then
                    match branchColors.find? (fun e => e.2.lane = node.lane) with
                    | some e => e.1
                    | none => branch0
                  else branch0
                let color := match alGet branchColors branch with
                  | some bc => bc.color
                  | none => "#3b82f6"
                some { fromPos := posAt positions ic.1
                       toPos := posAt positions parentIdx
                       branch := branch, color := color }
              else none))
    []

/-- One step of the branch divergence/merge-back pass (lines 393-464),
accumulating the path list and the `processedBranches` set. -/
def divergenceStep (fuel : Nat) (commits : List RawCommit)
    (nodes : List (String × CommitNode))
    (branchColors : List (String × BranchColor)) (mainLine : List String)
    (positions : List CommitPos) (acc : List RenderPath × List String)
    (c : RawCommit) : List RenderPath × List String :=
  match alGet nodes c.commit with
  | none => acc
  | some node =>
    if node.isOnMainLine then acc
    else
      match node.branchRefs with
      | [] => acc
      | branchName :: _ =>
        if acc.2.contains branchName then acc
        else
          match commits.enum.find? (fun ic =>
              alHas nodes ic.2.commit
                && (parseBranchRefs ic.2.refs).contains branchName) with
          | none => acc
          | some tip =>
            match (bfsLoop nodes (fun x => mainLine.contains x) true fuel
                [tip.2.commit] [tip.2.commit]).1 with
            | none => acc
            | some ancestorHash =>
              match commits.findIdx? (fun c2 => c2.commit = ancestorHash) with
              | none => acc
              | some ancestorIdx =>
                let tipPos := posAt positions tip.1
                let ancestorPos := posAt positions ancestorIdx
                let color := match alGet branchColors branchName with
                  | some bc => bc.color
                  | none => "#3b82f6"
                let paths1 := acc.1 ++
                  [{ fromPos := ancestorPos, toPos := tipPos
                     branch := branchName, color := color }]
                let paths2 :=
                  match commits.enum.find? (fun ic =>
                      match alGet nodes ic.2.commit with
                      | some mn => mn.isOnMainLine
                          && (splitParents ic.2.parent).contains tip.2.commit
                      | none => false) with
                  | some mc => paths1 ++
                      [{ fromPos := tipPos, toPos := posAt positions mc.1
                         branch := branchName, color := color }]
                  | none => paths1
                (paths2, acc.2 ++ [branchName])

/-- The path builder's output: dot positions and connector records. -/
structure PathsResult where
  positions : List CommitPos
  paths : List RenderPath
deriving Repr

/-- The full path-building stage with explicit traversal fuel: classify, lay
out dots, then the direct and divergence passes. -/
def buildPathsFuel (fuel : Nat) (commits : List RawCommit)
    (rowPositions : List Frac) (headerHeight width : Frac) : PathsResult :=
  let t := buildTreeStructureFuel fuel commits
  let positions := commitPositions commits t.nodes rowPositions headerHeight width
  let direct := directEdges commits t.nodes t.branchColors positions
  let final := commits.foldl
    (divergenceStep fuel commits t.nodes t.branchColors t.mainLine positions)
    (direct, [])
  { positions := positions, paths := final.1 }

/-- The path-building stage at the canonical fuel. -/
def buildPaths (commits : List RawCommit) (rowPositions : List Frac)
    (headerHeight width : Frac) : PathsResult :=
  buildPathsFuel (bfsFuel commits) commits rowPositions headerHeight width

/-- The divergence test of the renderer (line 513). -/
def isDivergence (p : RenderPath) : Bool :=
  p.fromPos.lane != p.toPos.lane || p.fromPos.isOnMainLine != p.toPos.isOnMainLine

/-- The geometry of one rounded-corner connector (lines 516-564): the data of
the emitted `M … L … A … L …` path command. -/
structure CornerPath where
  startX : Frac
  startY : Frac
  horizEndX : Frac
  arcRadius : Frac
  sweep : Bool
  cornerX : Frac
  verticalStartY : Frac
  endX : Frac
  endY : Frac
deriving DecidableEq, Repr

/-- Corner-path construction for a divergent edge (lines 516-564). -/
def divergentPath (fromP toP : CommitPos) : CornerPath :=
  let goingRight := Frac.ltb fromP.x toP.x
  let goingDown := Frac.ltb fromP.y toP.y
  let startY := fromP.y
  let targetY := toP.y + dotRadius
  let cornerX := toP.x
  let horizontalEndX := if goingRight then cornerX - cornerRadius
    else cornerX + cornerRadius
  let verticalStartY := if goingDown then startY + cornerRadius
    else startY - dotRadius
  let effectiveCornerRadius := if goingDown then cornerRadius
    else Frac.fmin cornerRadius dotRadius
  let effectiveHorizontalEndX := if goingDown then horizontalEndX
    else if goingRight then cornerX - effectiveCornerRadius
    else cornerX + effectiveCornerRadius
  let arcSweepFlag := (goingRight && goingDown) || (!goingRight && !goingDown)
  { startX := fromP.x, startY := startY, horizEndX := effectiveHorizontalEndX
    arcRadius := effectiveCornerRadius, sweep := arcSweepFlag
    cornerX := cornerX, verticalStartY := verticalStartY
    endX := toP.x, endY := targetY }

/-- A rendered connector: the straight `<line>` or the cornered `<path>`
(lines 511-592). -/
inductive Connector where
  | straight (x1 y1 x2 y2 : Frac) (color : String)
  | corner (cp : CornerPath) (color : String)
deriving DecidableEq, Repr

/-- Rendering one entry of `paths` (lines 511-592). -/
def renderConnector (p : RenderPath) : Connector :=
  if isDivergence p then
    Connector.corner (divergentPath p.fromPos p.toPos) p.color
  else
    Connector.straight p.fromPos.x p.fromPos.y p.toPos.x p.toPos.y p.color

/-! ### Association-list lemmas -/

theorem alGet_alSet_self {α : Type} (m : List (String × α)) (k : String) (v : α) :
    alGet (alSet m k v) k = some v := by
  induction m with
  | nil => simp [alSet, alGet]
  | cons e rest ih =>
    by_cases h : e.1 = k
    · simp [alSet, alGet, h]
    · simp [alSet, alGet, h, ih]

theorem alGet_alSet_ne {α : Type} (m : List (String × α)) (k k' : String) (v : α)
    (h : k' ≠ k) : alGet (alSet m k v) k' = alGet m k' := by
  induction m with
  | nil =>
    simp only [alSet, alGet]
    rw [if_neg (fun hh => h hh.symm)]
  | cons e rest ih =>
    by_cases he : e.1 = k
    · subst he
      simp only [alSet, if_pos rfl, alGet]
      rw [if_neg (fun hh => h hh.symm), if_neg (fun hh => h hh.symm)]
    · simp only [alSet, if_neg he, alGet, ih]

theorem alGet_alUpdate_self {α : Type} (m : List (String × α)) (k : String)
    (f : α → α) : alGet (alUpdate m k f) k = (alGet m k).map f := by
  induction m with
  | nil => simp [alUpdate, alGet]
  | cons e rest ih =>
    by_cases h : e.1 = k
    · simp [alUpdate, alGet, h]
    · simp [alUpdate, alGet, h, ih]

theorem alGet_alUpdate_ne {α : Type} (m : List (String × α)) (k k' : String)
    (f : α → α) (h : k' ≠ k) : alGet (alUpdate m k f) k' = alGet m k' := by
  induction m with
  | nil => simp [alUpdate]
  | cons e rest ih =>
    by_cases he : e.1 = k
    · subst he
      simp only [alUpdate, if_pos rfl, alGet]
      rw [if_neg (fun hh => h hh.symm), if_neg (fun hh => h hh.symm)]
    · simp only [alUpdate, if_neg he, alGet, ih]

theorem alKeys_alUpdate {α : Type} (m : List (String × α)) (k : String)
    (f : α → α) : alKeys (alUpdate m k f) = alKeys m := by
  induction m with
  | nil => rfl
  | cons e rest ih =>
    by_cases h : e.1 = k
    · simp [alUpdate, alKeys, h]
    · simp only [alUpdate, if_neg h]
      simp [alKeys] at ih ⊢
      exact ih

theorem mem_alKeys_alSet {α : Type} {m : List (String × α)} {k x : String}
    {v : α} (h : x ∈ alKeys (alSet m k v)) : x ∈ alKeys m ∨ x = k := by
  induction m with
  | nil =>
    simp only [alSet, alKeys, List.map_cons, List.map_nil, List.mem_singleton] at h
    exact Or.inr h
  | cons e rest ih =>
    by_cases he : e.1 = k
    · simp only [alSet, if_pos he, alKeys, List.map_cons, List.mem_cons] at h ⊢
      rcases h with h | h
      · exact Or.inl (Or.inl h)
      · exact Or.inl (Or.inr h)
    · simp only [alSet, if_neg he, alKeys, List.map_cons, List.mem_cons] at h ⊢
      rcases h with h | h
      · exact Or.inl (Or.inl h)
      · rcases ih h with h' | h'
        · exact Or.inl (Or.inr h')
        · exact Or.inr h'

theorem self_mem_alKeys_alSet {α : Type} (m : List (String × α)) (k : String)
    (v : α) : k ∈ alKeys (alSet m k v) := by
  induction m with
  | nil => simp [alSet, alKeys]
  | cons e rest ih =>
    by_cases he : e.1 = k
    · simp [alSet, alKeys, he]
    · simp only [alSet, if_neg he, alKeys, List.map_cons, List.mem_cons]
      exact Or.inr ih

theorem mem_alKeys_alSet_of_mem {α : Type} {m : List (String × α)} {x : String}
    (k : String) (v : α) (h : x ∈ alKeys m) : x ∈ alKeys (alSet m k v) := by
  induction m with
  | nil => simp [alKeys] at h
  | cons e rest ih =>
    by_cases he : e.1 = k
    · simpa [alSet, alKeys, he] using h
    · simp only [alKeys, List.map_cons, List.mem_cons] at h
      rcases h with h | h
      · simp [alSet, alKeys, he, h]
      · simp only [alSet, if_neg he, alKeys, List.map_cons, List.mem_cons]
        exact Or.inr (ih h)

theorem alHas_iff_mem_alKeys {α : Type} (m : List (String × α)) (k : String) :
    alHas m k = true ↔ k ∈ alKeys m := by
  induction m with
  | nil => simp [alHas, alGet, alKeys]
  | cons e rest ih =>
    by_cases he : e.1 = k
    · simp [alHas, alGet, alKeys, he]
    · simp only [alHas, alGet, if_neg he, alKeys, List.map_cons, List.mem_cons]
      constructor
      · intro hh
        exact Or.inr (ih.mp hh)
      · intro hh
        rcases hh with hh | hh
        · exact absurd hh.symm he
        · exact ih.mpr hh

theorem alGet_isSome_of_mem_alKeys {α : Type} {m : List (String × α)}
    {k : String} (h : k ∈ alKeys m) : ∃ v, alGet m k = some v := by
  have := (alHas_iff_mem_alKeys m k).mpr h
  simp only [alHas, Option.isSome_iff_exists] at this
  exact this

theorem mem_alKeys_of_alGet {α : Type} {m : List (String × α)} {k : String}
    {v : α} (h : alGet m k = some v) : k ∈ alKeys m := by
  rw [← alHas_iff_mem_alKeys]
  simp [alHas, h]

/-- A `foldl` preserves any invariant its step preserves. -/
theorem foldl_invariant {β γ : Type} (step : β → γ → β) (Inv : β → Prop)
    (l : List γ) (st : β) (h0 : Inv st)
    (hstep : ∀ st' c, c ∈ l → Inv st' → Inv (step st' c)) :
    Inv (l.foldl step st) := by
  induction l generalizing st with
  | nil => exact h0
  | cons d rest ih =>
    exact ih (step st d) (hstep st d (List.mem_cons_self d rest) h0)
      (fun st' c hc => hstep st' c (List.mem_cons_of_mem d hc))

/-! ### Structural facts about the classifier phases -/

theorem alKeys_createNodes_covers {commits : List RawCommit} {k : String}
    (h : k ∈ alKeys (createNodes commits)) : ∃ c ∈ commits, c.commit = k := by
  unfold createNodes at h
  suffices hgen : ∀ (l : List (Nat × RawCommit)) (m : List (String × CommitNode)),
      k ∈ alKeys (l.foldl (fun m ic =>
        alSet m ic.2.commit
          { commit := ic.2.commit, parent := ic.2.parent
            branchRefs := parseBranchRefs ic.2.refs, index := ic.1
            lane := 0, isOnMainLine := false }) m) →
      k ∈ alKeys m ∨ ∃ ic ∈ l, ic.2.commit = k by
    rcases hgen commits.enum [] h with h' | ⟨ic, hic, hk⟩
    · simp [alKeys] at h'
    · refine ⟨ic.2, ?_, hk⟩
      have := List.enum_map_snd commits
      rw [← this]
      exact List.mem_map_of_mem Prod.snd hic
  intro l
  induction l with
  | nil => intro m hm; exact Or.inl hm
  | cons d rest ih =>
    intro m hm
    rcases ih _ hm with h' | ⟨ic, hic, hk⟩
    · rcases mem_alKeys_alSet h' with h'' | h''
      · exact Or.inl h''
      · exact Or.inr ⟨d, List.mem_cons_self d rest, h''.symm⟩
    · exact Or.inr ⟨ic, List.mem_cons_of_mem d hic, hk⟩

theorem mem_alKeys_createNodes {commits : List RawCommit} {c : RawCommit}
    (hc : c ∈ commits) : c.commit ∈ alKeys (createNodes commits) := by
  unfold createNodes
  have henum : ∃ ic ∈ commits.enum, ic.2 = c := by
    have := List.enum_map_snd commits
    rw [← this] at hc
    rcases List.mem_map.mp hc with ⟨ic, hic, hk⟩
    exact ⟨ic, hic, hk⟩
  rcases henum with ⟨ic, hic, hk⟩
  suffices hgen : ∀ (l : List (Nat × RawCommit)) (m : List (String × CommitNode)),
      (∃ jc ∈ l, jc.2.commit = c.commit) ∨ c.commit ∈ alKeys m →
      c.commit ∈ alKeys (l.foldl (fun m ic =>
        alSet m ic.2.commit
          { commit := ic.2.commit, parent := ic.2.parent
            branchRefs := parseBranchRefs ic.2.refs, index := ic.1
            lane := 0, isOnMainLine := false }) m) by
    exact hgen commits.enum [] (Or.inl ⟨ic, hic, by rw [hk]⟩)
  intro l
  induction l with
  | nil =>
    intro m hm
    rcases hm with ⟨jc, hjc, _⟩ | hm
    · exact absurd hjc (List.not_mem_nil jc)
    · exact hm
  | cons d rest ih =>
    intro m hm
    rcases hm with ⟨jc, hjc, hk'⟩ | hm
    · rcases List.mem_cons.mp hjc with rfl | hjc'
      · exact ih _ (Or.inr (by rw [← hk']; exact self_mem_alKeys_alSet _ _ _))
      · exact ih _ (Or.inl ⟨jc, hjc', hk'⟩)
    · exact ih _ (Or.inr (mem_alKeys_alSet_of_mem _ _ hm))

theorem alKeys_nodes_assignTip (mb : Option String) (st : AssignState)
    (c : RawCommit) : alKeys (assignTip mb st c).nodes = alKeys st.nodes := by
  unfold assignTip
  cases parseBranchRefs c.refs with
  | nil => rfl
  | cons primary rest =>
    by_cases h : some primary = mb
    · simp only [if_pos h]
      exact alKeys_alUpdate _ _ _
    · simp only [if_neg h]
      by_cases h2 : alHas st.branchColors primary
      · simp only [if_pos h2]
        exact alKeys_alUpdate _ _ _
      · simp only [if_neg h2]
        exact alKeys_alUpdate _ _ _

theorem alKeys_nodes_propagate (fuel : Nat) (ml : List String)
    (st : AssignState) (c : RawCommit) :
    alKeys (propagate fuel ml st c).nodes = alKeys st.nodes := by
  unfold propagate
  by_cases h1 : alHas st.commitToLane c.commit
  · simp only [if_pos h1]
  · simp only [if_neg h1]
    by_cases h2 : ml.contains c.commit
    · simp only [if_pos h2]
      exact alKeys_alUpdate _ _ _
    · simp only [if_neg h2]
      cases (bfsLoop st.nodes (fun x => alHas st.commitToLane x) false fuel
          [c.commit] [c.commit]).1 with
      | none => exact alKeys_alUpdate _ _ _
      | some found => exact alKeys_alUpdate _ _ _

theorem alKeys_nodes_mergeCorrect (ml : List String) (st : AssignState)
    (c : RawCommit) :
    alKeys (mergeCorrect ml st c).nodes = alKeys st.nodes := by
  unfold mergeCorrect
  by_cases h : (splitParents c.parent).length > 1
      && (splitParents c.parent).any (fun p => ml.contains p)
  · simp only [if_pos h]
    exact alKeys_alUpdate _ _ _
  · simp only [if_neg h]

/-- `alHas` is monotone under `alSet`. -/
theorem alHas_alSet_mono {α : Type} {m : List (String × α)} {k : String}
    (k0 : String) (v : α) (h : alHas m k = true) :
    alHas (alSet m k0 v) k = true := by
  rw [alHas_iff_mem_alKeys] at h ⊢
  exact mem_alKeys_alSet_of_mem k0 v h

/-- Lane assignments are never removed by the tip loop. -/
theorem lane_mono_assignTip (mb : Option String) (st : AssignState)
    (c : RawCommit) {k : String} (h : alHas st.commitToLane k = true) :
    alHas (assignTip mb st c).commitToLane k = true := by
  unfold assignTip
  cases parseBranchRefs c.refs with
  | nil => exact h
  | cons primary rest =>
    by_cases hp : some primary = mb
    · simp only [if_pos hp]
      exact alHas_alSet_mono _ _ h
    · simp only [if_neg hp]
      by_cases h2 : alHas st.branchColors primary
      · simp only [if_pos h2]
        exact alHas_alSet_mono _ _ h
      · simp only [if_neg h2]
        exact alHas_alSet_mono _ _ h

/-- Lane assignments are never removed by the propagation loop. -/
theorem lane_mono_propagate (fuel : Nat) (ml : List String) (st : AssignState)
    (c : RawCommit) {k : String} (h : alHas st.commitToLane k = true) :
    alHas (propagate fuel ml st c).commitToLane k = true := by
  unfold propagate
  by_cases h1 : alHas st.commitToLane c.commit
  · simp only [if_pos h1]
    exact h
  · simp only [if_neg h1]
    by_cases h2 : ml.contains c.commit
    · simp only [if_pos h2]
      exact alHas_alSet_mono _ _ h
    · simp only [if_neg h2]
      cases (bfsLoop st.nodes (fun x => alHas st.commitToLane x) false fuel
          [c.commit] [c.commit]).1 with
      | none => exact alHas_alSet_mono _ _ h
      | some found => exact alHas_alSet_mono _ _ h

/-- Lane assignments are never removed by the merge loop. -/
theorem lane_mono_mergeCorrect (ml : List String) (st : AssignState)
    (c : RawCommit) {k : String} (h : alHas st.commitToLane k = true) :
    alHas (mergeCorrect ml st c).commitToLane k = true := by
  unfold mergeCorrect
  by_cases hc : (splitParents c.parent).length > 1
      && (splitParents c.parent).any (fun p => ml.contains p)
  · simp only [if_pos hc]
    exact alHas_alSet_mono _ _ h
  · simp only [if_neg hc]
    exact h

/-- The propagation loop always assigns a lane to the commit it processes. -/
theorem propagate_assigns (fuel : Nat) (ml : List String) (st : AssignState)
    (c : RawCommit) :
    alHas (propagate fuel ml st c).commitToLane c.commit = true := by
  unfold propagate
  by_cases h1 : alHas st.commitToLane c.commit
  · simp only [if_pos h1]
    exact h1
  · simp only [if_neg h1]
    by_cases h2 : ml.contains c.commit
    · simp only [if_pos h2, alHas, alGet_alSet_self, Option.isSome_some]
    · simp only [if_neg h2]
      cases (bfsLoop st.nodes (fun x => alHas st.commitToLane x) false fuel
          [c.commit] [c.commit]).1 with
      | none => simp only [alHas, alGet_alSet_self, Option.isSome_some]
      | some found => simp only [alHas, alGet_alSet_self, Option.isSome_some]

/-- After the propagation fold, every commit of the list has a lane entry. -/
theorem foldl_propagate_assigns (fuel : Nat) (ml : List String)
    (commits : List RawCommit) (st : AssignState) {c : RawCommit}
    (hc : c ∈ commits) :
    alHas ((commits.foldl (propagate fuel ml) st).commitToLane) c.commit
      = true := by
  induction commits generalizing st with
  | nil => exact absurd hc (List.not_mem_nil c)
  | cons d rest ih =>
    rcases List.mem_cons.mp hc with rfl | hc'
    · simp only [List.foldl_cons]
      have h0 : alHas ((propagate fuel ml st c).commitToLane) c.commit = true :=
        propagate_assigns fuel ml st c
      exact foldl_invariant (propagate fuel ml)
        (fun st' => alHas st'.commitToLane c.commit = true) rest _ h0
        (fun st' d' _ h' => lane_mono_propagate fuel ml st' d' h')
    · exact ih _ hc'

/-- The lane/main-line consistency invariant carried по the assignment
state: every recorded branch color sits on a positive lane, the next free
lane is positive, and every node with a lane entry satisfies
`lane = 0 ↔ isOnMainLine`. -/
def laneConsistent (st : AssignState) : Prop :=
  (∀ k bc, alGet st.branchColors k = some bc → 1 ≤ bc.lane) ∧
  1 ≤ st.nextLane ∧
  (∀ k n, alGet st.nodes k = some n → alHas st.commitToLane k = true →
    (n.lane = 0 ↔ n.isOnMainLine = true))

theorem laneConsistent_assignTip (mb : Option String) (st : AssignState)
    (c : RawCommit) (h : laneConsistent st) :
    laneConsistent (assignTip mb st c) := by
  obtain ⟨h1, h2, h3⟩ := h
  unfold assignTip
  cases hbr : parseBranchRefs c.refs with
  | nil => exact ⟨h1, h2, h3⟩
  | cons primary rest =>
    by_cases hp : some primary = mb
    · simp only [if_pos hp]
      refine ⟨h1, h2, ?_⟩
      intro k n hget hhas
      by_cases hk : k = c.commit
      · subst hk
        rw [alGet_alUpdate_self] at hget
        rcases Option.map_eq_some'.mp hget with ⟨n0, _, rfl⟩
        simp
      · rw [alGet_alUpdate_ne _ _ _ _ hk] at hget
        have hhas' : alHas st.commitToLane k = true := by
          simpa [alHas, alGet_alSet_ne _ _ _ _ hk] using hhas
        exact h3 k n hget hhas'
    · simp only [if_neg hp]
      by_cases hbc : alHas st.branchColors primary
      · simp only [if_pos hbc]
        rcases Option.isSome_iff_exists.mp hbc with ⟨bc, hbc'⟩
        rw [hbc']
        have hlane : 1 ≤ bc.lane := h1 primary bc hbc'
        refine ⟨h1, h2, ?_⟩
        intro k n hget hhas
        by_cases hk : k = c.commit
        · subst hk
          rw [alGet_alUpdate_self] at hget
          rcases Option.map_eq_some'.mp hget with ⟨n0, _, rfl⟩
          simp only [Bool.false_eq_true, iff_false]
          omega
        · rw [alGet_alUpdate_ne _ _ _ _ hk] at hget
          have hhas' : alHas st.commitToLane k = true := by
            simpa [alHas, alGet_alSet_ne _ _ _ _ hk] using hhas
          exact h3 k n hget hhas'
      · simp only [if_neg hbc]
        rw [alGet_alSet_self]
        refine ⟨?_, show 1 ≤ st.nextLane + 1 by omega, ?_⟩
        · intro k bc hget
          by_cases hk : k = primary
          · subst hk
            rw [alGet_alSet_self] at hget
            cases hget
            exact h2
          · rw [alGet_alSet_ne _ _ _ _ hk] at hget
            exact h1 k bc hget
        · intro k n hget hhas
          by_cases hk : k = c.commit
          · subst hk
            rw [alGet_alUpdate_self] at hget
            rcases Option.map_eq_some'.mp hget with ⟨n0, _, rfl⟩
            simp only [Bool.false_eq_true, iff_false]
            omega
          · rw [alGet_alUpdate_ne _ _ _ _ hk] at hget
            have hhas' : alHas st.commitToLane k = true := by
              simpa [alHas, alGet_alSet_ne _ _ _ _ hk] using hhas
            exact h3 k n hget hhas'

theorem laneConsistent_propagate (fuel : Nat) (ml : List String)
    (st : AssignState) (c : RawCommit) (h : laneConsistent st) :
    laneConsistent (propagate fuel ml st c) := by
  obtain ⟨h1, h2, h3⟩ := h
  unfold propagate
  by_cases ha : alHas st.commitToLane c.commit
  · simp only [if_pos ha]
    exact ⟨h1, h2, h3⟩
  · simp only [if_neg ha]
    by_cases hm : ml.contains c.commit
    · simp only [if_pos hm]
      refine ⟨h1, h2, ?_⟩
      intro k n hget hhas
      by_cases hk : k = c.commit
      · subst hk
        rw [alGet_alUpdate_self] at hget
        rcases Option.map_eq_some'.mp hget with ⟨n0, _, rfl⟩
        simp
      · rw [alGet_alUpdate_ne _ _ _ _ hk] at hget
        have hhas' : alHas st.commitToLane k = true := by
          simpa [alHas, alGet_alSet_ne _ _ _ _ hk] using hhas
        exact h3 k n hget hhas'
    · simp only [if_neg hm]
      cases (bfsLoop st.nodes (fun x => alHas st.commitToLane x) false fuel
          [c.commit] [c.commit]).1 with
      | none =>
        refine ⟨h1, h2, ?_⟩
        intro k n hget hhas
        by_cases hk : k = c.commit
        · subst hk
          rw [alGet_alUpdate_self] at hget
          rcases Option.map_eq_some'.mp hget with ⟨n0, _, rfl⟩
          simp
        · rw [alGet_alUpdate_ne _ _ _ _ hk] at hget
          have hhas' : alHas st.commitToLane k = true := by
            simpa [alHas, alGet_alSet_ne _ _ _ _ hk] using hhas
          exact h3 k n hget hhas'
      | some found =>
        refine ⟨h1, h2, ?_⟩
        intro k n hget hhas
        by_cases hk : k = c.commit
        · subst hk
          rw [alGet_alUpdate_self] at hget
          rcases Option.map_eq_some'.mp hget with ⟨n0, _, rfl⟩
          simp [decide_eq_true_iff]
        · rw [alGet_alUpdate_ne _ _ _ _ hk] at hget
          have hhas' : alHas st.commitToLane k = true := by
            simpa [alHas, alGet_alSet_ne _ _ _ _ hk] using hhas
          exact h3 k n hget hhas'

theorem laneConsistent_mergeCorrect (ml : List String) (st : AssignState)
    (c : RawCommit) (h : laneConsistent st) :
    laneConsistent (mergeCorrect ml st c) := by
  obtain ⟨h1, h2, h3⟩ := h
  unfold mergeCorrect
  by_cases hc : (splitParents c.parent).length > 1
      && (splitParents c.parent).any (fun p => ml.contains p)
  · simp only [if_pos hc]
    refine ⟨h1, h2, ?_⟩
    intro k n hget hhas
    by_cases hk : k = c.commit
    · subst hk
      rw [alGet_alUpdate_self] at hget
      rcases Option.map_eq_some'.mp hget with ⟨n0, _, rfl⟩
      simp
    · rw [alGet_alUpdate_ne _ _ _ _ hk] at hget
      have hhas' : alHas st.commitToLane k = true := by
        simpa [alHas, alGet_alSet_ne _ _ _ _ hk] using hhas
      exact h3 k n hget hhas'
  · simp only [if_neg hc]
    exact ⟨h1, h2, h3⟩

/-- The merge loop writes only lane-0 main-line values, so a node already in
that state stays in it. -/
theorem mergeCorrect_keeps_zero (ml : List String) (st : AssignState)
    (d : RawCommit) (k : String)
    (h : ∃ n, alGet st.nodes k = some n ∧ n.lane = 0 ∧ n.isOnMainLine = true) :
    ∃ n, alGet (mergeCorrect ml st d).nodes k = some n ∧ n.lane = 0
      ∧ n.isOnMainLine = true := by
  rcases h with ⟨n, hget, hl, hm⟩
  unfold mergeCorrect
  by_cases hc : (splitParents d.parent).length > 1
      && (splitParents d.parent).any (fun p => ml.contains p)
  · simp only [if_pos hc]
    by_cases hk : k = d.commit
    · subst hk
      rw [alGet_alUpdate_self, hget]
      exact ⟨_, rfl, rfl, rfl⟩
    · rw [alGet_alUpdate_ne _ _ _ _ hk]
      exact ⟨n, hget, hl, hm⟩
  · simp only [if_neg hc]
    exact ⟨n, hget, hl, hm⟩

/-- Through the merge fold, a qualifying commit's node ends at lane 0 on the
main line. -/
theorem mergeCorrect_forces (ml : List String) (l : List RawCommit)
    (st : AssignState) (c : RawCommit) (hc : c ∈ l)
    (hcond : ((splitParents c.parent).length > 1
      && (splitParents c.parent).any (fun p => ml.contains p)) = true)
    (hkey : c.commit ∈ alKeys st.nodes) :
    ∃ n, alGet ((l.foldl (mergeCorrect ml) st).nodes) c.commit = some n
      ∧ n.lane = 0 ∧ n.isOnMainLine = true := by
  induction l generalizing st with
  | nil => exact absurd hc (List.not_mem_nil c)
  | cons d rest ih =>
    rcases List.mem_cons.mp hc with rfl | hc'
    · have hstep : ∃ n, alGet (mergeCorrect ml st c).nodes c.commit = some n
          ∧ n.lane = 0 ∧ n.isOnMainLine = true := by
        unfold mergeCorrect
        simp only [if_pos hcond]
        rcases alGet_isSome_of_mem_alKeys hkey with ⟨v, hv⟩
        rw [alGet_alUpdate_self, hv]
        exact ⟨_, rfl, rfl, rfl⟩
      exact foldl_invariant (mergeCorrect ml)
        (fun st' => ∃ n, alGet st'.nodes c.commit = some n ∧ n.lane = 0
          ∧ n.isOnMainLine = true) rest _ hstep
        (fun st' d' _ h' => mergeCorrect_keeps_zero ml st' d' _ h')
    · exact ih (mergeCorrect ml st d) hc'
        (by rw [alKeys_nodes_mergeCorrect]; exact hkey)

/-- Lane/main-line consistency of the finished assignment pipeline, stated
over the three folds of `buildTreeStructureFuel` with arbitrary parameters. -/
theorem lane_iff_aux (mb : Option String) (fuel : Nat) (ml : List String)
    (commits : List RawCommit) (nodes0 : List (String × CommitNode))
    (hcover : ∀ k ∈ alKeys nodes0, ∃ c ∈ commits, c.commit = k) :
    ∀ k n, alGet ((commits.foldl (mergeCorrect ml)
      (commits.foldl (propagate fuel ml)
        (commits.foldl (assignTip mb)
          ⟨nodes0, [], [], [], 1⟩)))).nodes k = some n →
      (n.lane = 0 ↔ n.isOnMainLine = true) := by
  intro k n h
  have inv0 : laneConsistent ⟨nodes0, [], [], [], 1⟩ := by
    refine ⟨?_, le_refl 1, ?_⟩
    · intro k' bc hget
      simp [alGet] at hget
    · intro k' n' _ hhas
      simp [alHas, alGet] at hhas
  have inv1 := foldl_invariant (assignTip mb) laneConsistent commits _ inv0
    (fun st' c _ hh => laneConsistent_assignTip mb st' c hh)
  have inv2 := foldl_invariant (propagate fuel ml) laneConsistent commits _ inv1
    (fun st' c _ hh => laneConsistent_propagate fuel ml st' c hh)
  have inv3 := foldl_invariant (mergeCorrect ml) laneConsistent commits _ inv2
    (fun st' c _ hh => laneConsistent_mergeCorrect ml st' c hh)
  have hkeys1 : alKeys (commits.foldl (assignTip mb)
      (⟨nodes0, [], [], [], 1⟩ : AssignState)).nodes = alKeys nodes0 :=
    foldl_invariant (assignTip mb) (fun st' => alKeys st'.nodes = alKeys nodes0)
      commits _ rfl
      (fun st' c _ hh => by
        show alKeys (assignTip mb st' c).nodes = alKeys nodes0
        rw [alKeys_nodes_assignTip]; exact hh)
  have hkeys2 : alKeys (commits.foldl (propagate fuel ml)
      (commits.foldl (assignTip mb)
        (⟨nodes0, [], [], [], 1⟩ : AssignState))).nodes = alKeys nodes0 :=
    foldl_invariant (propagate fuel ml)
      (fun st' => alKeys st'.nodes = alKeys nodes0) commits _ hkeys1
      (fun st' c _ hh => by
        show alKeys (propagate fuel ml st' c).nodes = alKeys nodes0
        rw [alKeys_nodes_propagate]; exact hh)
  have hkeys3 : alKeys (commits.foldl (mergeCorrect ml)
      (commits.foldl (propagate fuel ml)
        (commits.foldl (assignTip mb)
          (⟨nodes0, [], [], [], 1⟩ : AssignState)))).nodes = alKeys nodes0 :=
    foldl_invariant (mergeCorrect ml)
      (fun st' => alKeys st'.nodes = alKeys nodes0) commits _ hkeys2
      (fun st' c _ hh => by
        show alKeys (mergeCorrect ml st' c).nodes = alKeys nodes0
        rw [alKeys_nodes_mergeCorrect]; exact hh)
  have hkmem : k ∈ alKeys nodes0 := by
    rw [← hkeys3]
    exact mem_alKeys_of_alGet h
  rcases hcover k hkmem with ⟨c, hcmem, hck⟩
  have hhas2 : alHas (commits.foldl (propagate fuel ml)
      (commits.foldl (assignTip mb)
        (⟨nodes0, [], [], [], 1⟩ : AssignState))).commitToLane c.commit = true :=
    foldl_propagate_assigns fuel ml commits _ hcmem
  have hhas3 := foldl_invariant (mergeCorrect ml)
    (fun st' => alHas st'.commitToLane c.commit = true) commits _ hhas2
    (fun st' d _ hh => lane_mono_mergeCorrect ml st' d hh)
  exact inv3.2.2 k n h (hck ▸ hhas3)

/-- Node keys are unchanged by the tip and propagation folds. -/
theorem alKeys_nodes_phase12 (mb : Option String) (fuel : Nat) (ml : List String)
    (commits : List RawCommit) (nodes0 : List (String × CommitNode)) :
    alKeys ((commits.foldl (propagate fuel ml)
      (commits.foldl (assignTip mb)
        (⟨nodes0, [], [], [], 1⟩ : AssignState)))).nodes = alKeys nodes0 := by
  have hkeys1 : alKeys (commits.foldl (assignTip mb)
      (⟨nodes0, [], [], [], 1⟩ : AssignState)).nodes = alKeys nodes0 :=
    foldl_invariant (assignTip mb) (fun st' => alKeys st'.nodes = alKeys nodes0)
      commits _ rfl
      (fun st' c _ hh => by
        show alKeys (assignTip mb st' c).nodes = alKeys nodes0
        rw [alKeys_nodes_assignTip]; exact hh)
  exact foldl_invariant (propagate fuel ml)
    (fun st' => alKeys st'.nodes = alKeys nodes0) commits _ hkeys1
    (fun st' c _ hh => by
      show alKeys (propagate fuel ml st' c).nodes = alKeys nodes0
      rw [alKeys_nodes_propagate]; exact hh)

/-- The scan loop of main-branch detection is `List.find?` over the
main-or-master test, preferring `"main"` within the found commit. -/
theorem detectMainScan_eq_find (commits : List RawCommit) :
    detectMainScan commits = (commits.find? (fun c =>
      (parseBranchRefs c.refs).contains "main"
        || (parseBranchRefs c.refs).contains "master")).map
      (fun c => if (parseBranchRefs c.refs).contains "main" then "main"
        else "master") := by
  induction commits with
  | nil => rfl
  | cons c rest ih =>
    by_cases hm : "main" ∈ parseBranchRefs c.refs
    · simp [detectMainScan, List.find?_cons, hm]
    · by_cases hM : "master" ∈ parseBranchRefs c.refs
      · simp [detectMainScan, List.find?_cons, hm, hM]
      · simp [detectMainScan, List.find?_cons, hm, hM, ih]

/-- `lexLe` is reflexive. -/
theorem lexLe_refl (x : List Char) : lexLe x x = true := by
  induction x with
  | nil => rfl
  | cons a as ih => simp [lexLe, lt_irrefl, ih]

/-- `strLeP` is reflexive. -/
theorem strLeP_refl (s : String) : strLeP s s := lexLe_refl s.data

/-- `sortStrings` only depends on a list up to permutation. -/
theorem sortStrings_eq_of_perm {l₁ l₂ : List String} (h : l₁.Perm l₂) :
    sortStrings l₁ = sortStrings l₂ :=
  List.eq_of_perm_of_sorted
    ((List.perm_insertionSort strLeP l₁).trans
      (h.trans (List.perm_insertionSort strLeP l₂).symm))
    (List.sorted_insertionSort strLeP l₁)
    (List.sorted_insertionSort strLeP l₂)

/-- Tokens produced by `refsTokens` are non-empty strings. -/
theorem refsTokens_ne_empty (refs : String) : ∀ r ∈ refsTokens refs, r ≠ "" := by
  intro r hr
  unfold refsTokens at hr
  rcases List.mem_filter.mp hr with ⟨_, hlen⟩
  intro hre
  subst hre
  simp [jsLength] at hlen

/-- The name a token would contribute (the arrow target when the token has
one, the token itself otherwise) — the value the colorer's parser strips
`origin/` from. -/
def tokenName (r : String) : String :=
  match arrowTarget r with
  | some t => t
  | none => r

/-- A refs string is remote-free when no token's contributed name starts
with the `origin/` qualifier. -/
def noRemoteRefs (refs : String) : Prop :=
  ∀ r ∈ refsTokens refs, jsStartsWith (tokenName r) "origin/" = false

instance (refs : String) : Decidable (noRemoteRefs refs) :=
  inferInstanceAs (Decidable (∀ r ∈ refsTokens refs, _ = false))

/-- The tree parser's collection distributes over the head token. -/
theorem collectTree_cons (r : String) (rest : List String) :
    collectTreeBranches (r :: rest) =
      collectTreeBranches [r] ++ collectTreeBranches rest := by
  by_cases h1 : r = "HEAD"
  · simp [collectTreeBranches, h1]
  · by_cases h2 : jsEndsWith r " -> HEAD" = true
    · simp [collectTreeBranches, h1, h2]
    · cases hat : arrowTarget r with
      | some b =>
        by_cases hb : b ≠ "" ∧ b ≠ "HEAD" ∧ ¬(jsHasChar b '/' = true)
        · simp [collectTreeBranches, h1, h2, hat, hb.1, hb.2.1, hb.2.2]
        · rcases not_and_or.mp hb with hb' | hb'
          · simp only [ne_eq, not_not] at hb'
            simp [collectTreeBranches, h1, h2, hat, hb']
          · rcases not_and_or.mp hb' with hb'' | hb''
            · simp only [ne_eq, not_not] at hb''
              simp [collectTreeBranches, h1, h2, hat, hb'']
            · simp only [not_not] at hb''
              simp [collectTreeBranches, h1, h2, hat, hb'']
      | none =>
        by_cases hs : jsHasChar r '/' = true
        · simp [collectTreeBranches, h1, h2, hat, hs]
        · simp [collectTreeBranches, h1, h2, hat, hs]

/-- Under the remote-free hypothesis, one step of the colorer's collection
is the tree parser's contribution filtered by the seen set. -/
theorem collectColor_cons (r : String) (rest seen : List String)
    (hne : r ≠ "") (hnr : jsStartsWith (tokenName r) "origin/" = false) :
    collectColorBranches (r :: rest) seen =
      match collectTreeBranches [r] with
      | [b] =>
        if seen.contains b then collectColorBranches rest seen
        else b :: collectColorBranches rest (b :: seen)
      | _ => collectColorBranches rest seen := by
  by_cases h1 : r = "HEAD"
  · simp [collectColorBranches, collectTreeBranches, h1]
  · by_cases h2 : jsEndsWith r " -> HEAD" = true
    · simp [collectColorBranches, collectTreeBranches, h1, h2]
    · cases hat : arrowTarget r with
      | some b =>
        have hname : tokenName r = b := by simp [tokenName, hat]
        rw [hname] at hnr
        by_cases hb2 : b = "HEAD"
        · simp [collectColorBranches, collectTreeBranches, h1, h2, hat, hb2]
        · by_cases hb1 : b = ""
          · simp [collectColorBranches, collectTreeBranches, h1, h2, hat, hb1]
          · by_cases hb3 : jsHasChar b '/' = true
            · simp [collectColorBranches, collectTreeBranches, h1, h2, hat,
                hb1, hb2, hb3, hnr]
            · by_cases hseen : seen.contains b = true
              · simp [collectColorBranches, collectTreeBranches, h1, h2, hat,
                  hb1, hb2, hb3, hnr, hseen]
              · simp [collectColorBranches, collectTreeBranches, h1, h2, hat,
                  hb1, hb2, hb3, hnr, hseen]
      | none =>
        have hname : tokenName r = r := by simp [tokenName, hat]
        rw [hname] at hnr
        by_cases hs : jsHasChar r '/' = true
        · simp [collectColorBranches, collectTreeBranches, h1, h2, hat, hs,
            hne, hnr]
        · by_cases hseen : seen.contains r = true
          · simp [collectColorBranches, collectTreeBranches, h1, h2, hat, hs,
              hne, hnr, hseen]
          · simp [collectColorBranches, collectTreeBranches, h1, h2, hat, hs,
              hne, hnr, hseen]

/-- The tree parser contributes at most one name per token. -/
theorem collectTree_single_shape (r : String) :
    collectTreeBranches [r] = [] ∨ ∃ b, collectTreeBranches [r] = [b] := by
  by_cases h1 : r = "HEAD"
  · left; simp [collectTreeBranches, h1]
  · by_cases h2 : jsEndsWith r " -> HEAD" = true
    · left; simp [collectTreeBranches, h1, h2]
    · cases hat : arrowTarget r with
      | some b =>
        by_cases hb1 : b = ""
        · left; simp [collectTreeBranches, h1, h2, hat, hb1]
        · by_cases hb2 : b = "HEAD"
          · left; simp [collectTreeBranches, h1, h2, hat, hb2]
          · by_cases hb3 : jsHasChar b '/' = true
            · left; simp [collectTreeBranches, h1, h2, hat, hb1, hb2, hb3]
            · right
              refine ⟨b, ?_⟩
              simp [collectTreeBranches, h1, h2, hat, hb1, hb2, hb3]
      | none =>
        by_cases hs : jsHasChar r '/' = true
        · left; simp [collectTreeBranches, h1, h2, hat, hs]
        · right
          refine ⟨r, ?_⟩
          simp [collectTreeBranches, h1, h2, hat, hs]

/-- Membership in the colorer's collection: exactly the tree parser's
names not yet in the seen set. -/
theorem mem_collectColor_iff (tokens : List String)
    (hne : ∀ r ∈ tokens, r ≠ "")
    (hnr : ∀ r ∈ tokens, jsStartsWith (tokenName r) "origin/" = false) :
    ∀ (seen : List String) (a : String),
      a ∈ collectColorBranches tokens seen ↔
        (a ∈ collectTreeBranches tokens ∧ seen.contains a = false) := by
  induction tokens with
  | nil =>
    intro seen a
    simp [collectColorBranches, collectTreeBranches]
  | cons r rest ih =>
    intro seen a
    have hne' : ∀ x ∈ rest, x ≠ "" :=
      fun x hx => hne x (List.mem_cons_of_mem r hx)
    have hnr' : ∀ x ∈ rest, jsStartsWith (tokenName x) "origin/" = false :=
      fun x hx => hnr x (List.mem_cons_of_mem r hx)
    rw [collectTree_cons,
      collectColor_cons r rest seen (hne r (List.mem_cons_self r rest))
        (hnr r (List.mem_cons_self r rest))]
    rcases collectTree_single_shape r with hshape | ⟨b, hshape⟩
    · rw [hshape]
      simp only [List.nil_append]
      show a ∈ collectColorBranches rest seen ↔ _
      exact ih hne' hnr' seen a
    · rw [hshape]
      simp only [List.cons_append, List.nil_append]
      show a ∈ (if seen.contains b = true then collectColorBranches rest seen
          else b :: collectColorBranches rest (b :: seen)) ↔
        (a ∈ b :: collectTreeBranches rest ∧ seen.contains a = false)
      by_cases hseen : seen.contains b = true
      · rw [if_pos hseen, ih hne' hnr' seen a]
        by_cases hab : a = b
        · subst hab
          rw [hseen]
          simp
        · simp [hab]
      · rw [if_neg hseen]
        rw [Bool.not_eq_true] at hseen
        by_cases hab : a = b
        · subst hab
          constructor
          · intro _
            exact ⟨List.mem_cons_self a _, hseen⟩
          · intro _
            exact List.mem_cons_self a _
        · have h1 : (a ∈ b :: collectColorBranches rest (b :: seen)) ↔
              a ∈ collectColorBranches rest (b :: seen) := by
            simp [hab]
          rw [h1, ih hne' hnr' (b :: seen) a]
          have hc : (b :: seen).contains a = seen.contains a := by
            simp only [List.contains_cons]
            have hba : (a == b) = false := beq_eq_false_iff_ne.mpr hab
            rw [hba]
            simp
          rw [hc]
          simp [hab]

/-! ### Termination and closure of the breadth-first traversals -/

/-- Unfolding step of the enqueue loop when the parent is taken. -/
theorem enqueueParents_cons_pos (nodes : List (String × CommitNode))
    (p : String) (ps vis q : List String) (h1 : vis.contains p = false)
    (h2 : alHas nodes p = true) :
    enqueueParents nodes (p :: ps) vis q
      = enqueueParents nodes ps (vis ++ [p]) (q ++ [p]) := by
  simp only [enqueueParents, h1, h2, Bool.not_false, Bool.and_self, if_true]

/-- Unfolding step of the enqueue loop when the parent is skipped. -/
theorem enqueueParents_cons_neg (nodes : List (String × CommitNode))
    (p : String) (ps vis q : List String)
    (h : (!(vis.contains p) && alHas nodes p) = false) :
    enqueueParents nodes (p :: ps) vis q = enqueueParents nodes ps vis q := by
  simp only [enqueueParents, h, Bool.false_eq_true, if_false]

/-- Specification of the enqueue loop: it appends the same block of fresh,
present ids to the visited list and the queue; freshness keeps the visited
list duplicate-free, and every present parent ends up visited. -/
theorem enqueueParents_spec (nodes : List (String × CommitNode)) :
    ∀ (ps vis q : List String), ∃ new : List String,
      (enqueueParents nodes ps vis q).1 = vis ++ new ∧
      (enqueueParents nodes ps vis q).2 = q ++ new ∧
      (∀ x ∈ new, alHas nodes x = true) ∧
      (vis.Nodup → (vis ++ new).Nodup) ∧
      (∀ p ∈ ps, alHas nodes p = true → p ∈ vis ++ new) := by
  intro ps
  induction ps with
  | nil =>
    intro vis q
    exact ⟨[], by simp [enqueueParents], by simp [enqueueParents],
      by simp, by simp, by simp⟩
  | cons p ps ih =>
    intro vis q
    by_cases hcond : (!(vis.contains p) && alHas nodes p) = true
    · rcases ih (vis ++ [p]) (q ++ [p]) with ⟨new, h1, h2, h3, h4, h5⟩
      rw [Bool.and_eq_true, Bool.not_eq_true'] at hcond
      refine ⟨p :: new, ?_, ?_, ?_, ?_, ?_⟩
      · rw [enqueueParents_cons_pos nodes p ps vis q hcond.1 hcond.2, h1]
        simp
      · rw [enqueueParents_cons_pos nodes p ps vis q hcond.1 hcond.2, h2]
        simp
      · intro x hx
        rcases List.mem_cons.mp hx with rfl | hx'
        · exact hcond.2
        · exact h3 x hx'
      · intro hnd
        have hpnot : p ∉ vis := by
          intro hmem
          have hcontra : vis.contains p = true := List.elem_iff.mpr hmem
          rw [hcond.1] at hcontra
          cases hcontra
        have hnd1 : (vis ++ [p]).Nodup := by
          rw [List.nodup_append]
          exact ⟨hnd, List.nodup_singleton p,
            fun a ha hb => by
              rw [List.mem_singleton] at hb
              subst hb
              exact hpnot ha⟩
        have h' := h4 hnd1
        rw [List.append_assoc] at h'
        simpa using h'
      · intro x hx hhas
        rcases List.mem_cons.mp hx with rfl | hx'
        · have hp2 : x ∈ (vis ++ [x]) ++ new := by
            rw [List.mem_append]
            exact Or.inl (by simp)
          rw [List.append_assoc] at hp2
          simp only [List.singleton_append] at hp2
          exact hp2
        · have h' := h5 x hx' hhas
          rw [List.append_assoc] at h'
          simpa using h'
    · rcases ih vis q with ⟨new, h1, h2, h3, h4, h5⟩
      refine ⟨new, ?_, ?_, h3, h4, ?_⟩
      · rw [enqueueParents_cons_neg nodes p ps vis q
          (Bool.not_eq_true _ ▸ eq_false_of_ne_true hcond), h1]
      · rw [enqueueParents_cons_neg nodes p ps vis q
          (Bool.not_eq_true _ ▸ eq_false_of_ne_true hcond), h2]
      · intro x hx hhas
        rcases List.mem_cons.mp hx with rfl | hx'
        · rw [Bool.and_eq_true] at hcond
          rcases not_and_or.mp hcond with hc | hc
          · rw [Bool.not_eq_true'] at hc
            simp only [Bool.not_eq_false] at hc
            have hxv : x ∈ vis := List.elem_iff.mp hc
            rw [List.mem_append]
            exact Or.inl hxv
          · exact absurd hhas hc
        · exact h5 x hx' hhas

/-- The traversal returns immediately on an empty queue, at any fuel. -/
theorem bfsLoop_nil_queue (nodes : List (String × CommitNode))
    (stop : String → Bool) (stopFirst : Bool) (f : Nat) (vis : List String) :
    bfsLoop nodes stop stopFirst f vis [] = (none, vis) := by
  cases f with
  | zero => rfl
  | succ _ => rfl

/-- The traversal's potential: queue length plus twice the number of ids not
yet visited.  It strictly decreases at every dequeue. -/
def bfsPhi (kcard : Nat) (vis q : List String) : Nat :=
  q.length + 2 * (kcard - vis.length)

/-- Fuel stability: two runs with fuel at least the initial potential agree,
so the traversal's answer is reached within `bfsPhi` many steps. -/
theorem bfsLoop_stable (nodes : List (String × CommitNode))
    (stop : String → Bool) (stopFirst : Bool) (K : List String)
    (hK : ∀ x, alHas nodes x = true → x ∈ K) :
    ∀ (f₁ f₂ : Nat) (vis q : List String), vis.Nodup → (∀ x ∈ vis, x ∈ K) →
      bfsPhi K.length vis q ≤ f₁ → bfsPhi K.length vis q ≤ f₂ →
      bfsLoop nodes stop stopFirst f₁ vis q
        = bfsLoop nodes stop stopFirst f₂ vis q := by
  intro f₁
  induction f₁ with
  | zero =>
    intro f₂ vis q _ _ h1 _
    have hq : q = [] := by
      rcases q with _ | ⟨c, rest⟩
      · rfl
      · exfalso
        simp [bfsPhi] at h1
    subst hq
    rw [bfsLoop_nil_queue, bfsLoop_nil_queue]
  | succ a ih =>
    intro f₂ vis q hnd hsub h1 h2
    rcases q with _ | ⟨c, rest⟩
    · rw [bfsLoop_nil_queue, bfsLoop_nil_queue]
    · have hf₂ : ∃ b, f₂ = b + 1 := by
        rcases f₂ with _ | b
        · exfalso
          simp [bfsPhi] at h2
        · exact ⟨b, rfl⟩
      rcases hf₂ with ⟨b, rfl⟩
      by_cases hsf : (stopFirst && stop c) = true
      · simp only [bfsLoop, hsf, if_true]
      · cases hget : alGet nodes c with
        | none =>
          simp only [bfsLoop, hsf, Bool.false_eq_true, if_false, hget]
          have hphi : bfsPhi K.length vis (c :: rest)
              = bfsPhi K.length vis rest + 1 := by
            simp only [bfsPhi, List.length_cons]
            omega
          rw [hphi] at h1 h2
          exact ih b vis rest hnd hsub (by omega) (by omega)
        | some node =>
          by_cases hs2 : (!stopFirst && stop c) = true
          · simp only [bfsLoop, hsf, Bool.false_eq_true, if_false, hget, hs2,
              if_true]
          · simp only [bfsLoop, hsf, Bool.false_eq_true, if_false, hget, hs2]
            rcases enqueueParents_spec nodes (splitParents node.parent) vis rest
              with ⟨new, he1, he2, he3, he4, _⟩
            have hnd' : (vis ++ new).Nodup := he4 hnd
            have hsub' : ∀ x ∈ vis ++ new, x ∈ K := by
              intro x hx
              rcases List.mem_append.mp hx with hx' | hx'
              · exact hsub x hx'
              · exact hK x (he3 x hx')
            have hlen : (vis ++ new).length ≤ K.length :=
              (List.subperm_of_subset hnd' (fun x hx => hsub' x hx)).length_le
            have hphi' : bfsPhi K.length (vis ++ new) (rest ++ new) + 1
                ≤ bfsPhi K.length vis (c :: rest) := by
              simp only [bfsPhi, List.length_append, List.length_cons]
              have hv : vis.length + new.length ≤ K.length := by
                simpa using hlen
              omega
            rw [he1, he2]
            exact ih b (vis ++ new) (rest ++ new) hnd' hsub'
              (by omega) (by omega)

/-- The parent ids of `v` that have a node in the map. -/
def parentsPresent (nodes : List (String × CommitNode)) (v : String) :
    List String :=
  match alGet nodes v with
  | none => []
  | some n => (splitParents n.parent).filter (fun p => alHas nodes p)

/-- A stop-free traversal with adequate fuel visits a set closed under
present-parent edges (and keeps everything already visited). -/
theorem bfsLoop_closure (nodes : List (String × CommitNode)) (K : List String)
    (hK : ∀ x, alHas nodes x = true → x ∈ K) :
    ∀ (f : Nat) (vis q : List String), vis.Nodup → (∀ x ∈ vis, x ∈ K) →
      bfsPhi K.length vis q ≤ f →
      (∀ v ∈ vis, v ∈ q ∨ ∀ p ∈ parentsPresent nodes v, p ∈ vis) →
      (∀ v ∈ vis, v ∈ (bfsLoop nodes (fun _ => false) false f vis q).2) ∧
      (∀ v ∈ (bfsLoop nodes (fun _ => false) false f vis q).2,
        ∀ p ∈ parentsPresent nodes v,
          p ∈ (bfsLoop nodes (fun _ => false) false f vis q).2) := by
  intro f
  induction f with
  | zero =>
    intro vis q hnd hsub h1 hinv
    have hq : q = [] := by
      rcases q with _ | ⟨c, rest⟩
      · rfl
      · exfalso
        simp [bfsPhi] at h1
    subst hq
    rw [bfsLoop_nil_queue]
    constructor
    · intro v hv
      exact hv
    · intro v hv p hp
      rcases hinv v hv with hq' | hcl
      · exact absurd hq' (List.not_mem_nil v)
      · exact hcl p hp
  | succ a ih =>
    intro vis q hnd hsub h1 hinv
    rcases q with _ | ⟨c, rest⟩
    · rw [bfsLoop_nil_queue]
      constructor
      · intro v hv
        exact hv
      · intro v hv p hp
        rcases hinv v hv with hq' | hcl
        · exact absurd hq' (List.not_mem_nil v)
        · exact hcl p hp
    · cases hget : alGet nodes c with
      | none =>
        have hstep : bfsLoop nodes (fun _ => false) false (a + 1) vis (c :: rest)
            = bfsLoop nodes (fun _ => false) false a vis rest := by
          simp only [bfsLoop, Bool.false_and, Bool.false_eq_true, if_false, hget]
        rw [hstep]
        have hinv' : ∀ v ∈ vis, v ∈ rest
            ∨ ∀ p ∈ parentsPresent nodes v, p ∈ vis := by
          intro v hv
          rcases hinv v hv with hq' | hcl
          · rcases List.mem_cons.mp hq' with rfl | hq''
            · right
              intro p hp
              simp [parentsPresent, hget] at hp
            · exact Or.inl hq''
          · exact Or.inr hcl
        have hphi : bfsPhi K.length vis (c :: rest)
            = bfsPhi K.length vis rest + 1 := by
          simp only [bfsPhi, List.length_cons]
          omega
        rw [hphi] at h1
        exact ih vis rest hnd hsub (by omega) hinv'
      | some node =>
        rcases enqueueParents_spec nodes (splitParents node.parent) vis rest
          with ⟨new, he1, he2, he3, he4, he5⟩
        have hstep : bfsLoop nodes (fun _ => false) false (a + 1) vis (c :: rest)
            = bfsLoop nodes (fun _ => false) false a (vis ++ new)
              (rest ++ new) := by
          simp only [bfsLoop, Bool.false_and, Bool.false_eq_true, if_false,
            Bool.not_false, Bool.true_and, hget]
          rw [he1, he2]
        rw [hstep]
        have hnd' : (vis ++ new).Nodup := he4 hnd
        have hsub' : ∀ x ∈ vis ++ new, x ∈ K := by
          intro x hx
          rcases List.mem_append.mp hx with hx' | hx'
          · exact hsub x hx'
          · exact hK x (he3 x hx')
        have hlen : (vis ++ new).length ≤ K.length :=
          (List.subperm_of_subset hnd' (fun x hx => hsub' x hx)).length_le
        have hphi' : bfsPhi K.length (vis ++ new) (rest ++ new) + 1
            ≤ bfsPhi K.length vis (c :: rest) := by
          simp only [bfsPhi, List.length_append, List.length_cons]
          have hv : vis.length + new.length ≤ K.length := by
            simpa using hlen
          omega
        have hinv' : ∀ v ∈ vis ++ new, v ∈ rest ++ new
            ∨ ∀ p ∈ parentsPresent nodes v, p ∈ vis ++ new := by
          intro v hv
          rcases List.mem_append.mp hv with hv' | hv'
          · rcases hinv v hv' with hq' | hcl
            · rcases List.mem_cons.mp hq' with rfl | hq''
              · right
                intro p hp
                simp only [parentsPresent, hget] at hp
                rcases List.mem_filter.mp hp with ⟨hp1, hp2⟩
                exact he5 p hp1 (by simpa using hp2)
              · exact Or.inl (List.mem_append.mpr (Or.inl hq''))
            · right
              intro p hp
              exact List.mem_append.mpr (Or.inl (hcl p hp))
          · exact Or.inl (List.mem_append.mpr (Or.inr hv'))
        have hres := ih (vis ++ new) (rest ++ new) hnd' hsub'
          (by omega) hinv'
        constructor
        · intro v hv
          exact hres.1 v (List.mem_append.mpr (Or.inl hv))
        · exact hres.2

/-- `createNodes` yields at most one node per commit. -/
theorem createNodes_length_le (commits : List RawCommit) :
    (createNodes commits).length ≤ commits.length := by
  have halSet : ∀ (m : List (String × CommitNode)) k v,
      (alSet m k v).length ≤ m.length + 1 := by
    intro m
    induction m with
    | nil => intro k v; simp [alSet]
    | cons e rest ihm =>
      intro k v
      by_cases he : e.1 = k
      · simp [alSet, he]
      · simp only [alSet, if_neg he, List.length_cons]
        have := ihm k v
        omega
  have hgen : ∀ (l : List (Nat × RawCommit)) (m : List (String × CommitNode)),
      (l.foldl (fun m ic =>
        alSet m ic.2.commit
          { commit := ic.2.commit, parent := ic.2.parent
            branchRefs := parseBranchRefs ic.2.refs, index := ic.1
            lane := 0, isOnMainLine := false }) m).length
        ≤ m.length + l.length := by
    intro l
    induction l with
    | nil => intro m; simp
    | cons d rest ihl =>
      intro m
      have h1 := ihl (alSet m d.2.commit
        { commit := d.2.commit, parent := d.2.parent
          branchRefs := parseBranchRefs d.2.refs, index := d.1
          lane := 0, isOnMainLine := false })
      have h2 := halSet m d.2.commit
        { commit := d.2.commit, parent := d.2.parent
          branchRefs := parseBranchRefs d.2.refs, index := d.1
          lane := 0, isOnMainLine := false }
      simp only [List.foldl_cons, List.length_cons]
      omega
  have h := hgen commits.enum []
  unfold createNodes
  have hel : commits.enum.length = commits.length := List.enum_length
  simp only [List.length_nil] at h
  omega

/-- The main-line set is closed under present-parent edges, whichever way
the main branch was detected. -/
theorem markMainLine_closed (commits : List RawCommit) (mb : Option String)
    (c p : String)
    (hc : c ∈ markMainLine (bfsFuel commits) commits (createNodes commits) mb)
    (hp : p ∈ parentsPresent (createNodes commits) c) :
    p ∈ markMainLine (bfsFuel commits) commits (createNodes commits) mb := by
  have hpk : p ∈ alKeys (createNodes commits) := by
    unfold parentsPresent at hp
    cases hget : alGet (createNodes commits) c with
    | none => rw [hget] at hp; cases hp
    | some n =>
      rw [hget] at hp
      rcases List.mem_filter.mp hp with ⟨_, hp2⟩
      exact (alHas_iff_mem_alKeys _ _).mp (by simpa using hp2)
  cases mb with
  | none =>
    rcases alKeys_createNodes_covers hpk with ⟨d, hd, hdk⟩
    simp only [markMainLine]
    rw [← hdk]
    exact List.mem_map_of_mem (fun x => x.commit) hd
  | some b =>
    simp only [markMainLine] at hc ⊢
    cases hfind : commits.find? (fun c' => (parseBranchRefs c'.refs).contains b)
      with
    | none =>
      simp only [hfind] at hc
      exact absurd hc (List.not_mem_nil c)
    | some tip =>
      simp only [hfind] at hc ⊢
      have hclosure := bfsLoop_closure (createNodes commits)
        (tip.commit :: alKeys (createNodes commits))
        (fun x hx => List.mem_cons_of_mem _
          ((alHas_iff_mem_alKeys _ _).mp hx))
        (bfsFuel commits) [tip.commit] [tip.commit]
        (List.nodup_singleton _)
        (fun x hx => by
          rw [List.mem_singleton] at hx
          subst hx
          exact List.mem_cons_self _ _)
        (by
          have hlen := createNodes_length_le commits
          simp only [bfsPhi, bfsFuel, List.length_singleton, List.length_cons,
            List.length_nil]
          have : (alKeys (createNodes commits)).length
              = (createNodes commits).length := List.length_map _ _
          omega)
        (fun v hv => Or.inl hv)
      exact hclosure.2 c hc p hp

/-- Fuel stability of a traversal started from a single id, with fuel at
least `2 * |nodes| + 3`. -/
theorem bfsLoop_stable_singleton (nodes : List (String × CommitNode))
    (stop : String → Bool) (stopFirst : Bool) (s : String) (f₁ f₂ : Nat)
    (h1 : 2 * nodes.length + 3 ≤ f₁) (h2 : 2 * nodes.length + 3 ≤ f₂) :
    bfsLoop nodes stop stopFirst f₁ [s] [s]
      = bfsLoop nodes stop stopFirst f₂ [s] [s] := by
  have hklen : (alKeys nodes).length = nodes.length := List.length_map _ _
  refine bfsLoop_stable nodes stop stopFirst (s :: alKeys nodes)
    (fun x hx => List.mem_cons_of_mem _ ((alHas_iff_mem_alKeys _ _).mp hx))
    f₁ f₂ [s] [s] (List.nodup_singleton s)
    (fun x hx => by
      rw [List.mem_singleton] at hx
      subst hx
      exact List.mem_cons_self _ _)
    ?_ ?_
  · simp only [bfsPhi, List.length_singleton, List.length_cons, List.length_nil]
    omega
  · simp only [bfsPhi, List.length_singleton, List.length_cons, List.length_nil]
    omega

/-- The propagation step only consults its fuel through the backward trace,
so any two adequate fuels give the same step. -/
theorem propagate_fuel_congr (ml : List String) (st : AssignState)
    (c : RawCommit) (f₁ f₂ : Nat) (h1 : 2 * st.nodes.length + 3 ≤ f₁)
    (h2 : 2 * st.nodes.length + 3 ≤ f₂) :
    propagate f₁ ml st c = propagate f₂ ml st c := by
  unfold propagate
  by_cases ha : alHas st.commitToLane c.commit
  · simp only [if_pos ha]
  · simp only [if_neg ha]
    by_cases hm : ml.contains c.commit = true
    · simp only [hm, if_true]
    · simp only [hm, Bool.false_eq_true, if_false]
      rw [bfsLoop_stable_singleton st.nodes
        (fun x => alHas st.commitToLane x) false c.commit f₁ f₂ h1 h2]

/-- Step preservation of the node-list length. -/
theorem nodes_length_assignTip (mb : Option String) (st : AssignState)
    (c : RawCommit) : (assignTip mb st c).nodes.length = st.nodes.length := by
  have h := congrArg List.length (alKeys_nodes_assignTip mb st c)
  simpa [alKeys] using h

/-- Step preservation of the node-list length. -/
theorem nodes_length_propagate (fuel : Nat) (ml : List String)
    (st : AssignState) (c : RawCommit) :
    (propagate fuel ml st c).nodes.length = st.nodes.length := by
  have h := congrArg List.length (alKeys_nodes_propagate fuel ml st c)
  simpa [alKeys] using h

/-- Step preservation of the node-list length. -/
theorem nodes_length_mergeCorrect (ml : List String) (st : AssignState)
    (c : RawCommit) :
    (mergeCorrect ml st c).nodes.length = st.nodes.length := by
  have h := congrArg List.length (alKeys_nodes_mergeCorrect ml st c)
  simpa [alKeys] using h

/-- Two folds agree when their steps agree on all states reachable under an
invariant. -/
theorem foldl_congr_inv {β γ : Type} (g₁ g₂ : β → γ → β) (P : β → Prop)
    (l : List γ) (st : β) (h0 : P st)
    (hpres : ∀ st' c, c ∈ l → P st' → P (g₁ st' c))
    (heq : ∀ st' c, c ∈ l → P st' → g₁ st' c = g₂ st' c) :
    l.foldl g₁ st = l.foldl g₂ st := by
  induction l generalizing st with
  | nil => rfl
  | cons d rest ih =>
    simp only [List.foldl_cons]
    rw [← heq st d (List.mem_cons_self d rest) h0]
    exact ih (g₁ st d) (hpres st d (List.mem_cons_self d rest) h0)
      (fun st' c hc => hpres st' c (List.mem_cons_of_mem d hc))
      (fun st' c hc => heq st' c (List.mem_cons_of_mem d hc))

/-- The main-line marking is fuel stable at or above the canonical fuel. -/
theorem markMainLine_fuel_congr (commits : List RawCommit) (mb : Option String)
    (f₁ f₂ : Nat) (h1 : bfsFuel commits ≤ f₁) (h2 : bfsFuel commits ≤ f₂) :
    markMainLine f₁ commits (createNodes commits) mb
      = markMainLine f₂ commits (createNodes commits) mb := by
  cases mb with
  | none => rfl
  | some b =>
    simp only [markMainLine]
    cases hfind : commits.find? (fun c' => (parseBranchRefs c'.refs).contains b)
      with
    | none => rfl
    | some tip =>
      simp only [hfind]
      have hlen := createNodes_length_le commits
      have hb1 : 2 * (createNodes commits).length + 3 ≤ f₁ := by
        simp only [bfsFuel] at h1
        omega
      have hb2 : 2 * (createNodes commits).length + 3 ≤ f₂ := by
        simp only [bfsFuel] at h2
        omega
      rw [bfsLoop_stable_singleton (createNodes commits) (fun _ => false) false
        tip.commit f₁ f₂ hb1 hb2]

/-- The classifier is fuel stable at or above the canonical fuel. -/
theorem buildTree_fuel_congr (commits : List RawCommit) (f₁ f₂ : Nat)
    (h1 : bfsFuel commits ≤ f₁) (h2 : bfsFuel commits ≤ f₂) :
    buildTreeStructureFuel f₁ commits = buildTreeStructureFuel f₂ commits := by
  have hml := markMainLine_fuel_congr commits (detectMainBranch commits)
    f₁ f₂ h1 h2
  have hlen := createNodes_length_le commits
  have hst1len : (commits.foldl (assignTip (detectMainBranch commits))
      (⟨createNodes commits, [], [], [], 1⟩ : AssignState)).nodes.length
      = (createNodes commits).length :=
    foldl_invariant (assignTip (detectMainBranch commits))
      (fun st => st.nodes.length = (createNodes commits).length)
      commits _ rfl
      (fun st c _ hP => by
        show (assignTip (detectMainBranch commits) st c).nodes.length
          = (createNodes commits).length
        rw [nodes_length_assignTip]
        exact hP)
  have hst2 : commits.foldl
        (propagate f₁ (markMainLine f₁ commits (createNodes commits)
          (detectMainBranch commits)))
        (commits.foldl (assignTip (detectMainBranch commits))
          (⟨createNodes commits, [], [], [], 1⟩ : AssignState))
      = commits.foldl
        (propagate f₂ (markMainLine f₂ commits (createNodes commits)
          (detectMainBranch commits)))
        (commits.foldl (assignTip (detectMainBranch commits))
          (⟨createNodes commits, [], [], [], 1⟩ : AssignState)) := by
    rw [hml]
    refine foldl_congr_inv _ _
      (fun st => st.nodes.length = (createNodes commits).length)
      commits _ hst1len ?_ ?_
    · intro st c _ hP
      show (propagate f₁ _ st c).nodes.length = (createNodes commits).length
      rw [nodes_length_propagate]
      exact hP
    · intro st c _ hP
      refine propagate_fuel_congr _ st c f₁ f₂ ?_ ?_
      · rw [hP]
        simp only [bfsFuel] at h1
        omega
      · rw [hP]
        simp only [bfsFuel] at h2
        omega
  show TreeResult.mk
      (commits.foldl (mergeCorrect (markMainLine f₁ commits
        (createNodes commits) (detectMainBranch commits)))
        (commits.foldl (propagate f₁ (markMainLine f₁ commits
          (createNodes commits) (detectMainBranch commits)))
          (commits.foldl (assignTip (detectMainBranch commits))
            (⟨createNodes commits, [], [], [], 1⟩ : AssignState)))).nodes
      (commits.foldl (mergeCorrect (markMainLine f₁ commits
        (createNodes commits) (detectMainBranch commits)))
        (commits.foldl (propagate f₁ (markMainLine f₁ commits
          (createNodes commits) (detectMainBranch commits)))
          (commits.foldl (assignTip (detectMainBranch commits))
            (⟨createNodes commits, [], [], [], 1⟩ : AssignState)))).branchColors
      (markMainLine f₁ commits (createNodes commits)
        (detectMainBranch commits))
    = TreeResult.mk
      (commits.foldl (mergeCorrect (markMainLine f₂ commits
        (createNodes commits) (detectMainBranch commits)))
        (commits.foldl (propagate f₂ (markMainLine f₂ commits
          (createNodes commits) (detectMainBranch commits)))
          (commits.foldl (assignTip (detectMainBranch commits))
            (⟨createNodes commits, [], [], [], 1⟩ : AssignState)))).nodes
      (commits.foldl (mergeCorrect (markMainLine f₂ commits
        (createNodes commits) (detectMainBranch commits)))
        (commits.foldl (propagate f₂ (markMainLine f₂ commits
          (createNodes commits) (detectMainBranch commits)))
          (commits.foldl (assignTip (detectMainBranch commits))
            (⟨createNodes commits, [], [], [], 1⟩ : AssignState)))).branchColors
      (markMainLine f₂ commits (createNodes commits)
        (detectMainBranch commits))
  rw [hst2, hml]

/-- The classifier's node list never exceeds the commit count. -/
theorem treeNodes_length_le (fuel : Nat) (commits : List RawCommit) :
    (buildTreeStructureFuel fuel commits).nodes.length ≤ commits.length := by
  have hfold : ∀ ml : List String,
      ((commits.foldl (mergeCorrect ml)
        (commits.foldl (propagate fuel ml)
          (commits.foldl (assignTip (detectMainBranch commits))
            (⟨createNodes commits, [], [], [], 1⟩ : AssignState))))).nodes.length
        = (createNodes commits).length := by
    intro ml
    have hA := foldl_invariant (assignTip (detectMainBranch commits))
      (fun st => st.nodes.length = (createNodes commits).length) commits
      (⟨createNodes commits, [], [], [], 1⟩ : AssignState) rfl
      (fun st c _ hP => by
        show (assignTip (detectMainBranch commits) st c).nodes.length
          = (createNodes commits).length
        rw [nodes_length_assignTip]
        exact hP)
    have hB := foldl_invariant (propagate fuel ml)
      (fun st => st.nodes.length = (createNodes commits).length) commits _ hA
      (fun st c _ hP => by
        show (propagate fuel ml st c).nodes.length
          = (createNodes commits).length
        rw [nodes_length_propagate]
        exact hP)
    exact foldl_invariant (mergeCorrect ml)
      (fun st => st.nodes.length = (createNodes commits).length) commits _ hB
      (fun st c _ hP => by
        show (mergeCorrect ml st c).nodes.length
          = (createNodes commits).length
        rw [nodes_length_mergeCorrect]
        exact hP)
  have hml := hfold (markMainLine fuel commits (createNodes commits)
    (detectMainBranch commits))
  have hlen := createNodes_length_le commits
  show ((commits.foldl (mergeCorrect (markMainLine fuel commits
      (createNodes commits) (detectMainBranch commits)))
    (commits.foldl (propagate fuel (markMainLine fuel commits
      (createNodes commits) (detectMainBranch commits)))
      (commits.foldl (assignTip (detectMainBranch commits))
        (⟨createNodes commits, [], [], [], 1⟩ : AssignState))))).nodes.length
    ≤ commits.length
  omega

/-- The divergence step only consults its fuel through the common-ancestor
search, so any two adequate fuels give the same step. -/
theorem divergenceStep_fuel_congr (commits : List RawCommit)
    (nodes : List (String × CommitNode))
    (bcs : List (String × BranchColor)) (ml : List String)
    (positions : List CommitPos) (f₁ f₂ : Nat)
    (h1 : 2 * nodes.length + 3 ≤ f₁) (h2 : 2 * nodes.length + 3 ≤ f₂)
    (acc : List RenderPath × List String) (c : RawCommit) :
    divergenceStep f₁ commits nodes bcs ml positions acc c
      = divergenceStep f₂ commits nodes bcs ml positions acc c := by
  unfold divergenceStep
  cases hget : alGet nodes c.commit with
  | none => rfl
  | some node =>
    by_cases hmain : node.isOnMainLine = true
    · simp only [if_pos hmain]
    · simp only [if_neg hmain]
      cases hrefs : node.branchRefs with
      | nil => rfl
      | cons bn rest =>
        by_cases hproc : acc.2.contains bn = true
        · simp only [if_pos hproc]
        · simp only [if_neg hproc]
          cases hfind : commits.enum.find? (fun ic =>
              alHas nodes ic.2.commit
                && (parseBranchRefs ic.2.refs).contains bn) with
          | none => rfl
          | some tip =>
            dsimp only
            rw [bfsLoop_stable_singleton nodes (fun x => ml.contains x) true
              tip.2.commit f₁ f₂ h1 h2]

/-- The path builder is fuel stable at or above the canonical fuel. -/
theorem buildPaths_fuel_congr (commits : List RawCommit) (f₁ f₂ : Nat)
    (h1 : bfsFuel commits ≤ f₁) (h2 : bfsFuel commits ≤ f₂)
    (rows : List Frac) (hh w : Frac) :
    buildPathsFuel f₁ commits rows hh w = buildPathsFuel f₂ commits rows hh w := by
  have ht := buildTree_fuel_congr commits f₁ f₂ h1 h2
  show PathsResult.mk
      (commitPositions commits (buildTreeStructureFuel f₁ commits).nodes
        rows hh w)
      (commits.foldl
        (divergenceStep f₁ commits (buildTreeStructureFuel f₁ commits).nodes
          (buildTreeStructureFuel f₁ commits).branchColors
          (buildTreeStructureFuel f₁ commits).mainLine
          (commitPositions commits (buildTreeStructureFuel f₁ commits).nodes
            rows hh w))
        (directEdges commits (buildTreeStructureFuel f₁ commits).nodes
          (buildTreeStructureFuel f₁ commits).branchColors
          (commitPositions commits (buildTreeStructureFuel f₁ commits).nodes
            rows hh w), [])).1
    = PathsResult.mk
      (commitPositions commits (buildTreeStructureFuel f₂ commits).nodes
        rows hh w)
      (commits.foldl
        (divergenceStep f₂ commits (buildTreeStructureFuel f₂ commits).nodes
          (buildTreeStructureFuel f₂ commits).branchColors
          (buildTreeStructureFuel f₂ commits).mainLine
          (commitPositions commits (buildTreeStructureFuel f₂ commits).nodes
            rows hh w))
        (directEdges commits (buildTreeStructureFuel f₂ commits).nodes
          (buildTreeStructureFuel f₂ commits).branchColors
          (commitPositions commits (buildTreeStructureFuel f₂ commits).nodes
            rows hh w), [])).1
  rw [ht]
  have hnlen := treeNodes_length_le f₂ commits
  have hfold := foldl_congr_inv
    (divergenceStep f₁ commits (buildTreeStructureFuel f₂ commits).nodes
      (buildTreeStructureFuel f₂ commits).branchColors
      (buildTreeStructureFuel f₂ commits).mainLine
      (commitPositions commits (buildTreeStructureFuel f₂ commits).nodes
        rows hh w))
    (divergenceStep f₂ commits (buildTreeStructureFuel f₂ commits).nodes
      (buildTreeStructureFuel f₂ commits).branchColors
      (buildTreeStructureFuel f₂ commits).mainLine
      (commitPositions commits (buildTreeStructureFuel f₂ commits).nodes
        rows hh w))
    (fun _ => True) commits
    (directEdges commits (buildTreeStructureFuel f₂ commits).nodes
      (buildTreeStructureFuel f₂ commits).branchColors
      (commitPositions commits (buildTreeStructureFuel f₂ commits).nodes
        rows hh w), [])
    trivial (fun _ _ _ _ => trivial)
    (fun acc c _ _ => by
      refine divergenceStep_fuel_congr commits _ _ _ _ f₁ f₂ ?_ ?_ acc c
      · simp only [bfsFuel] at h1
        omega
      · simp only [bfsFuel] at h2
        omega)
  rw [hfold]

/-! ### Behaviour on a commit with a dangling parent (claim C8) -/

/-- A commit with no parsed branch refs is skipped by the tip loop. -/
theorem assignTip_skip (mb : Option String) (st : AssignState) (c : RawCommit)
    (h : parseBranchRefs c.refs = []) : assignTip mb st c = st := by
  unfold assignTip
  rw [h]

/-- The tip loop writes only under the processed commit's id. -/
theorem assignTip_other (mb : Option String) (st : AssignState) (d : RawCommit)
    (k : String) (h : d.commit ≠ k) :
    alGet (assignTip mb st d).nodes k = alGet st.nodes k ∧
    alGet (assignTip mb st d).commitToLane k = alGet st.commitToLane k := by
  have hk : k ≠ d.commit := fun hh => h hh.symm
  unfold assignTip
  cases parseBranchRefs d.refs with
  | nil => exact ⟨rfl, rfl⟩
  | cons primary rest =>
    by_cases hp : some primary = mb
    · simp only [if_pos hp]
      exact ⟨alGet_alUpdate_ne _ _ _ _ hk, alGet_alSet_ne _ _ _ _ hk⟩
    · simp only [if_neg hp]
      by_cases hbc : alHas st.branchColors primary
      · simp only [if_pos hbc]
        exact ⟨alGet_alUpdate_ne _ _ _ _ hk, alGet_alSet_ne _ _ _ _ hk⟩
      · simp only [if_neg hbc]
        exact ⟨alGet_alUpdate_ne _ _ _ _ hk, alGet_alSet_ne _ _ _ _ hk⟩

/-- The propagation loop writes only under the processed commit's id. -/
theorem propagate_other (fuel : Nat) (ml : List String) (st : AssignState)
    (d : RawCommit) (k : String) (h : d.commit ≠ k) :
    alGet (propagate fuel ml st d).nodes k = alGet st.nodes k ∧
    alGet (propagate fuel ml st d).commitToLane k = alGet st.commitToLane k := by
  have hk : k ≠ d.commit := fun hh => h hh.symm
  unfold propagate
  by_cases ha : alHas st.commitToLane d.commit
  · simp only [if_pos ha]
    constructor <;> trivial
  · simp only [if_neg ha]
    by_cases hm : ml.contains d.commit = true
    · simp only [hm, if_true]
      exact ⟨alGet_alUpdate_ne _ _ _ _ hk, alGet_alSet_ne _ _ _ _ hk⟩
    · simp only [hm, Bool.false_eq_true, if_false]
      cases (bfsLoop st.nodes (fun x => alHas st.commitToLane x) false fuel
          [d.commit] [d.commit]).1 with
      | none => exact ⟨alGet_alUpdate_ne _ _ _ _ hk, alGet_alSet_ne _ _ _ _ hk⟩
      | some found =>
        exact ⟨alGet_alUpdate_ne _ _ _ _ hk, alGet_alSet_ne _ _ _ _ hk⟩

/-- The merge loop writes only under the processed commit's id. -/
theorem mergeCorrect_other (ml : List String) (st : AssignState)
    (d : RawCommit) (k : String) (h : d.commit ≠ k) :
    alGet (mergeCorrect ml st d).nodes k = alGet st.nodes k := by
  have hk : k ≠ d.commit := fun hh => h hh.symm
  unfold mergeCorrect
  by_cases hc : ((splitParents d.parent).length > 1
      && (splitParents d.parent).any (fun p => ml.contains p)) = true
  · simp only [if_pos hc]
    exact alGet_alUpdate_ne _ _ _ _ hk
  · simp only [if_neg hc]

/-- The merge loop ignores single-parent commits. -/
theorem mergeCorrect_single (ml : List String) (st : AssignState)
    (c : RawCommit) (h : (splitParents c.parent).length ≤ 1) :
    mergeCorrect ml st c = st := by
  unfold mergeCorrect
  have hd : decide ((splitParents c.parent).length > 1) = false := by
    rw [decide_eq_false_iff_not]
    omega
  simp only [hd, Bool.false_and, Bool.false_eq_true, if_false]

/-- Fold version of `assignTip_other`/`assignTip_skip`. -/
theorem foldl_assignTip_preserve (mb : Option String) :
    ∀ (l : List RawCommit) (st : AssignState) (k : String),
      (∀ d ∈ l, d.commit ≠ k ∨ parseBranchRefs d.refs = []) →
      alGet ((l.foldl (assignTip mb) st)).nodes k = alGet st.nodes k ∧
      alGet ((l.foldl (assignTip mb) st)).commitToLane k
        = alGet st.commitToLane k := by
  intro l
  induction l with
  | nil => intro st k _; exact ⟨rfl, rfl⟩
  | cons d rest ih =>
    intro st k hcond
    rcases ih (assignTip mb st d) k
      (fun d' hd' => hcond d' (List.mem_cons_of_mem d hd')) with ⟨h1, h2⟩
    simp only [List.foldl_cons] at h1 h2 ⊢
    rcases hcond d (List.mem_cons_self d rest) with hne | hskip
    · rcases assignTip_other mb st d k hne with ⟨g1, g2⟩
      exact ⟨h1.trans g1, h2.trans g2⟩
    · rw [assignTip_skip mb st d hskip] at h1 h2 ⊢
      exact ⟨h1, h2⟩

/-- Fold version of `propagate_other`. -/
theorem foldl_propagate_preserve (fuel : Nat) (ml : List String) :
    ∀ (l : List RawCommit) (st : AssignState) (k : String),
      (∀ d ∈ l, d.commit ≠ k) →
      alGet ((l.foldl (propagate fuel ml) st)).nodes k = alGet st.nodes k ∧
      alGet ((l.foldl (propagate fuel ml) st)).commitToLane k
        = alGet st.commitToLane k := by
  intro l
  induction l with
  | nil => intro st k _; exact ⟨rfl, rfl⟩
  | cons d rest ih =>
    intro st k hcond
    rcases ih (propagate fuel ml st d) k
      (fun d' hd' => hcond d' (List.mem_cons_of_mem d hd')) with ⟨h1, h2⟩
    rcases propagate_other fuel ml st d k
      (hcond d (List.mem_cons_self d rest)) with ⟨g1, g2⟩
    simp only [List.foldl_cons] at h1 h2 ⊢
    exact ⟨h1.trans g1, h2.trans g2⟩

/-- Fold version of `mergeCorrect_other`/`mergeCorrect_single`. -/
theorem foldl_mergeCorrect_preserve (ml : List String) :
    ∀ (l : List RawCommit) (st : AssignState) (k : String),
      (∀ d ∈ l, d.commit ≠ k ∨ (splitParents d.parent).length ≤ 1) →
      alGet ((l.foldl (mergeCorrect ml) st)).nodes k = alGet st.nodes k := by
  intro l
  induction l with
  | nil => intro st k _; rfl
  | cons d rest ih =>
    intro st k hcond
    have h1 := ih (mergeCorrect ml st d) k
      (fun d' hd' => hcond d' (List.mem_cons_of_mem d hd'))
    simp only [List.foldl_cons] at h1 ⊢
    rcases hcond d (List.mem_cons_self d rest) with hne | hsingle
    · exact h1.trans (mergeCorrect_other ml st d k hne)
    · rw [mergeCorrect_single ml st d hsingle] at h1 ⊢
      exact h1

/-- Node creation leaves a key alone when no processed commit carries it. -/
theorem createNodes_foldl_other :
    ∀ (l : List (Nat × RawCommit)) (m : List (String × CommitNode))
      (k : String), (∀ ic ∈ l, ic.2.commit ≠ k) →
      alGet (l.foldl (fun m ic =>
        alSet m ic.2.commit
          { commit := ic.2.commit, parent := ic.2.parent
            branchRefs := parseBranchRefs ic.2.refs, index := ic.1
            lane := 0, isOnMainLine := false }) m) k = alGet m k := by
  intro l
  induction l with
  | nil => intro m k _; rfl
  | cons d rest ih =>
    intro m k hcond
    have h1 := ih (alSet m d.2.commit
      { commit := d.2.commit, parent := d.2.parent
        branchRefs := parseBranchRefs d.2.refs, index := d.1
        lane := 0, isOnMainLine := false }) k
      (fun d' hd' => hcond d' (List.mem_cons_of_mem d hd'))
    simp only [List.foldl_cons] at h1 ⊢
    rw [h1]
    exact alGet_alSet_ne _ _ _ _
      (fun hh => hcond d (List.mem_cons_self d rest) hh.symm)

/-- The node stored for a commit occurring exactly once after position
`|l₁|` is built from that commit. -/
theorem createNodes_get (l₁ l₂ : List RawCommit) (c : RawCommit)
    (hu : ∀ d ∈ l₂, d.commit ≠ c.commit) :
    alGet (createNodes (l₁ ++ c :: l₂)) c.commit
      = some { commit := c.commit, parent := c.parent
               branchRefs := parseBranchRefs c.refs, index := l₁.length
               lane := 0, isOnMainLine := false } := by
  unfold createNodes
  rw [List.enum_append, List.enumFrom_cons, List.foldl_append, List.foldl_cons]
  rw [createNodes_foldl_other (List.enumFrom (l₁.length + 1) l₂) _ c.commit
    (fun ic hic => by
      have hmem : ic.2 ∈ l₂ := by
        have hmap := List.enumFrom_map_snd (l₁.length + 1) l₂
        rw [← hmap]
        exact List.mem_map_of_mem Prod.snd hic
      exact hu ic.2 hmem)]
  exact alGet_alSet_self _ _ _

/-- The propagation step on a commit whose lane is unassigned and whose only
parent has no node: the trace finds nothing and the commit defaults to the
main line. -/
theorem propagate_dangling (fuel' : Nat) (ml : List String) (st : AssignState)
    (c : RawCommit) (p : String) (n0 : CommitNode)
    (hget : alGet st.nodes c.commit = some n0)
    (hnone : alGet st.commitToLane c.commit = none)
    (hsp : splitParents n0.parent = [p])
    (hhasp : alHas st.nodes p = false) :
    alGet (propagate (fuel' + 1) ml st c).nodes c.commit
      = some { n0 with lane := 0, isOnMainLine := true } ∧
    alGet (propagate (fuel' + 1) ml st c).commitToLane c.commit = some 0 := by
  have ha : alHas st.commitToLane c.commit = false := by
    simp [alHas, hnone]
  unfold propagate
  by_cases hm : ml.contains c.commit = true
  · simp only [ha, Bool.false_eq_true, if_false, hm, if_true]
    constructor
    · rw [alGet_alUpdate_self, hget]
      rfl
    · exact alGet_alSet_self _ _ _
  · simp only [ha, Bool.false_eq_true, if_false, hm]
    have henq : enqueueParents st.nodes [p] [c.commit] [] = ([c.commit], []) := by
      simp only [enqueueParents, hhasp, Bool.and_false, Bool.false_eq_true,
        if_false]
    have htrace : (bfsLoop st.nodes (fun x => alHas st.commitToLane x) false
        (fuel' + 1) [c.commit] [c.commit]).1 = none := by
      simp only [bfsLoop, Bool.false_and, Bool.false_eq_true, if_false, hget,
        Bool.not_false, Bool.true_and, ha, hsp, henq]
      rw [bfsLoop_nil_queue]
    rw [htrace]
    constructor
    · rw [alGet_alUpdate_self, hget]
      rfl
    · exact alGet_alSet_self _ _ _

/-- Every indexed position lookup yields the dummy (empty id) or a commit of
the list. -/
theorem posAt_commit (commits : List RawCommit)
    (nodes : List (String × CommitNode)) (rows : List Frac) (hh w : Frac)
    (i : Nat) :
    (posAt (commitPositions commits nodes rows hh w) i).commit = "" ∨
    ∃ d ∈ commits,
      (posAt (commitPositions commits nodes rows hh w) i).commit = d.commit := by
  unfold posAt
  cases hget : (commitPositions commits nodes rows hh w).get? i with
  | none => exact Or.inl rfl
  | some pos =>
    right
    have hmem := List.get?_mem hget
    unfold commitPositions at hmem
    rcases List.mem_map.mp hmem with ⟨ic, hic, heq⟩
    refine ⟨ic.2, ?_, ?_⟩
    · have hmap := List.enum_map_snd commits
      rw [← hmap]
      exact List.mem_map_of_mem Prod.snd hic
    · simp only [Option.getD_some]
      rw [← heq]

/-- Endpoints of the direct-edge pass are indexed position lookups. -/
theorem directEdges_endpoints (commits : List RawCommit)
    (nodes : List (String × CommitNode))
    (bcs : List (String × BranchColor)) (positions : List CommitPos)
    (Q : CommitPos → Prop) (hQ : ∀ i, Q (posAt positions i)) :
    ∀ e ∈ directEdges commits nodes bcs positions,
      Q e.fromPos ∧ Q e.toPos := by
  unfold directEdges
  refine foldl_invariant _
    (fun paths : List RenderPath => ∀ e ∈ paths, Q e.fromPos ∧ Q e.toPos)
    commits.enum []
    (by intro e he; exact absurd he (List.not_mem_nil e)) ?_
  intro paths ic _ hInv
  cases hget : alGet nodes ic.2.commit with
  | none =>
    simp only [hget]
    exact hInv
  | some node =>
    simp only [hget]
    intro e he
    rcases List.mem_append.mp he with he' | he'
    · exact hInv e he'
    · rcases List.mem_filterMap.mp he' with ⟨ph, _, heq⟩
      cases hfi : commits.findIdx? (fun c2 => c2.commit = ph) with
      | none =>
        rw [hfi] at heq
        cases heq
      | some parentIdx =>
        rw [hfi] at heq
        cases hpn : alGet nodes ph with
        | none =>
          rw [hpn] at heq
          cases heq
        | some pn =>
          rw [hpn] at heq
          by_cases hcond : (node.lane = pn.lane
              && node.isOnMainLine = pn.isOnMainLine) = true
          · simp only [hcond, if_true, Option.some_inj] at heq
            rw [← heq]
            exact ⟨hQ ic.1, hQ parentIdx⟩
          · simp only [hcond, Bool.false_eq_true, if_false] at heq
            cases heq

/-- Endpoints of the divergence pass are indexed position lookups. -/
theorem divergence_endpoints (fuel : Nat) (commits : List RawCommit)
    (nodes : List (String × CommitNode))
    (bcs : List (String × BranchColor)) (ml : List String)
    (positions : List CommitPos) (Q : CommitPos → Prop)
    (hQ : ∀ i, Q (posAt positions i)) (l : List RawCommit)
    (acc : List RenderPath × List String)
    (hacc : ∀ e ∈ acc.1, Q e.fromPos ∧ Q e.toPos) :
    ∀ e ∈ (l.foldl
        (divergenceStep fuel commits nodes bcs ml positions) acc).1,
      Q e.fromPos ∧ Q e.toPos := by
  refine foldl_invariant _
    (fun acc' : List RenderPath × List String =>
      ∀ e ∈ acc'.1, Q e.fromPos ∧ Q e.toPos) l acc hacc ?_
  intro acc' c _ hInv
  unfold divergenceStep
  repeat' split
  all_goals try exact hInv
  all_goals
    intro e he
  all_goals
    simp only [List.mem_append, List.mem_singleton] at he
  all_goals
    first
      | (rcases he with (he' | he') | he'
         · exact hInv e he'
         · subst he'
           exact ⟨hQ _, hQ _⟩
         · subst he'
           exact ⟨hQ _, hQ _⟩)
      | (rcases he with he' | he'
         · exact hInv e he'
         · subst he'
           exact ⟨hQ _, hQ _⟩)

/-- Every connector endpoint of the path builder carries the empty id or an
id of the commit list. -/
theorem buildPaths_endpoints (commits : List RawCommit) (rows : List Frac)
    (hh w : Frac) :
    ∀ e ∈ (buildPaths commits rows hh w).paths,
      ((e.fromPos.commit = "" ∨ ∃ d ∈ commits, e.fromPos.commit = d.commit) ∧
       (e.toPos.commit = "" ∨ ∃ d ∈ commits, e.toPos.commit = d.commit)) := by
  intro e he
  have hQ := posAt_commit commits
    (buildTreeStructureFuel (bfsFuel commits) commits).nodes rows hh w
  refine divergence_endpoints (bfsFuel commits) commits
    (buildTreeStructureFuel (bfsFuel commits) commits).nodes
    (buildTreeStructureFuel (bfsFuel commits) commits).branchColors
    (buildTreeStructureFuel (bfsFuel commits) commits).mainLine
    (commitPositions commits
      (buildTreeStructureFuel (bfsFuel commits) commits).nodes rows hh w)
    (fun pos => pos.commit = "" ∨ ∃ d ∈ commits, pos.commit = d.commit)
    hQ commits
    (directEdges commits
      (buildTreeStructureFuel (bfsFuel commits) commits).nodes
      (buildTreeStructureFuel (bfsFuel commits) commits).branchColors
      (commitPositions commits
        (buildTreeStructureFuel (bfsFuel commits) commits).nodes rows hh w),
      [])
    ?_ e he
  exact directEdges_endpoints commits
    (buildTreeStructureFuel (bfsFuel commits) commits).nodes
    (buildTreeStructureFuel (bfsFuel commits) commits).branchColors
    (commitPositions commits
      (buildTreeStructureFuel (bfsFuel commits) commits).nodes rows hh w)
    (fun pos => pos.commit = "" ∨ ∃ d ∈ commits, pos.commit = d.commit) hQ

/-- Parent-token lists never contain the empty string. -/
theorem splitParents_ne_empty (parent : String) :
    ∀ p ∈ splitParents parent, p ≠ "" := by
  intro p hp
  unfold splitParents at hp
  rcases List.mem_filter.mp hp with ⟨_, h2⟩
  intro hpe
  subst hpe
  rw [show jsTrim "" = "" from rfl] at h2
  simp at h2

/-- A commit with no branch refs whose only parent has no node ends the
three assignment folds at lane 0 on the main line (stated over the folds of
`buildTreeStructureFuel` with arbitrary parameters). -/
theorem dangling_aux (mb : Option String) (fuel : Nat) (ml : List String)
    (l₁ l₂ : List RawCommit) (c : RawCommit) (p : String)
    (hpos : 1 ≤ fuel)
    (hu₁ : ∀ d ∈ l₁, d.commit ≠ c.commit)
    (hu₂ : ∀ d ∈ l₂, d.commit ≠ c.commit)
    (hrefs : parseBranchRefs c.refs = [])
    (hpar : splitParents c.parent = [p])
    (hdang : ∀ d ∈ l₁ ++ c :: l₂, d.commit ≠ p) :
    ∃ n, alGet (((l₁ ++ c :: l₂).foldl (mergeCorrect ml)
      ((l₁ ++ c :: l₂).foldl (propagate fuel ml)
        ((l₁ ++ c :: l₂).foldl (assignTip mb)
          (⟨createNodes (l₁ ++ c :: l₂), [], [], [], 1⟩ : AssignState)))).nodes)
      c.commit = some n ∧ n.lane = 0 ∧ n.isOnMainLine = true := by
  obtain ⟨fuel', rfl⟩ : ∃ f', fuel = f' + 1 := by
    rcases fuel with _ | f'
    · exact absurd hpos (by omega)
    · exact ⟨f', rfl⟩
  have hget0 := createNodes_get l₁ l₂ c hu₂
  have hcond4 : ∀ d ∈ l₁ ++ c :: l₂,
      d.commit ≠ c.commit ∨ parseBranchRefs d.refs = [] := by
    intro d hd
    rcases List.mem_append.mp hd with hd' | hd'
    · exact Or.inl (hu₁ d hd')
    · rcases List.mem_cons.mp hd' with rfl | hd''
      · exact Or.inr hrefs
      · exact Or.inl (hu₂ d hd'')
  obtain ⟨h4n, h4l⟩ := foldl_assignTip_preserve mb (l₁ ++ c :: l₂)
    (⟨createNodes (l₁ ++ c :: l₂), [], [], [], 1⟩ : AssignState)
    c.commit hcond4
  have hst2eq : (l₁ ++ c :: l₂).foldl (propagate (fuel' + 1) ml)
        ((l₁ ++ c :: l₂).foldl (assignTip mb)
          (⟨createNodes (l₁ ++ c :: l₂), [], [], [], 1⟩ : AssignState))
      = l₂.foldl (propagate (fuel' + 1) ml)
        (propagate (fuel' + 1) ml
          (l₁.foldl (propagate (fuel' + 1) ml)
            ((l₁ ++ c :: l₂).foldl (assignTip mb)
              (⟨createNodes (l₁ ++ c :: l₂), [], [], [], 1⟩ : AssignState))) c)
      := by
    rw [List.foldl_append, List.foldl_cons]
  obtain ⟨hAn, hAl⟩ := foldl_propagate_preserve (fuel' + 1) ml l₁
    ((l₁ ++ c :: l₂).foldl (assignTip mb)
      (⟨createNodes (l₁ ++ c :: l₂), [], [], [], 1⟩ : AssignState))
    c.commit hu₁
  have hgetA := hAn.trans (h4n.trans hget0)
  have hnoneA : alGet (l₁.foldl (propagate (fuel' + 1) ml)
      ((l₁ ++ c :: l₂).foldl (assignTip mb)
        (⟨createNodes (l₁ ++ c :: l₂), [], [], [], 1⟩ :
          AssignState))).commitToLane c.commit = none :=
    hAl.trans h4l
  have hkeys1 : alKeys ((l₁ ++ c :: l₂).foldl (assignTip mb)
      (⟨createNodes (l₁ ++ c :: l₂), [], [], [], 1⟩ : AssignState)).nodes
      = alKeys (createNodes (l₁ ++ c :: l₂)) :=
    foldl_invariant (assignTip mb)
      (fun st => alKeys st.nodes = alKeys (createNodes (l₁ ++ c :: l₂)))
      (l₁ ++ c :: l₂) _ rfl
      (fun st d _ hP => by
        show alKeys (assignTip mb st d).nodes
          = alKeys (createNodes (l₁ ++ c :: l₂))
        rw [alKeys_nodes_assignTip]
        exact hP)
  have hkeysA : alKeys (l₁.foldl (propagate (fuel' + 1) ml)
      ((l₁ ++ c :: l₂).foldl (assignTip mb)
        (⟨createNodes (l₁ ++ c :: l₂), [], [], [], 1⟩ : AssignState))).nodes
      = alKeys (createNodes (l₁ ++ c :: l₂)) :=
    foldl_invariant (propagate (fuel' + 1) ml)
      (fun st => alKeys st.nodes = alKeys (createNodes (l₁ ++ c :: l₂)))
      l₁ _ hkeys1
      (fun st d _ hP => by
        show alKeys (propagate (fuel' + 1) ml st d).nodes
          = alKeys (createNodes (l₁ ++ c :: l₂))
        rw [alKeys_nodes_propagate]
        exact hP)
  have hhasp : alHas (l₁.foldl (propagate (fuel' + 1) ml)
      ((l₁ ++ c :: l₂).foldl (assignTip mb)
        (⟨createNodes (l₁ ++ c :: l₂), [], [], [], 1⟩ :
          AssignState))).nodes p = false := by
    cases hb : alHas (l₁.foldl (propagate (fuel' + 1) ml)
        ((l₁ ++ c :: l₂).foldl (assignTip mb)
          (⟨createNodes (l₁ ++ c :: l₂), [], [], [], 1⟩ :
            AssignState))).nodes p with
    | false => rfl
    | true =>
      exfalso
      have hmem := (alHas_iff_mem_alKeys _ _).mp hb
      rw [hkeysA] at hmem
      rcases alKeys_createNodes_covers hmem with ⟨d, hd, hdk⟩
      exact hdang d hd hdk
  obtain ⟨hBn, hBl⟩ := propagate_dangling fuel' ml
    (l₁.foldl (propagate (fuel' + 1) ml)
      ((l₁ ++ c :: l₂).foldl (assignTip mb)
        (⟨createNodes (l₁ ++ c :: l₂), [], [], [], 1⟩ : AssignState)))
    c p _ hgetA hnoneA hpar hhasp
  obtain ⟨hCn, hCl⟩ := foldl_propagate_preserve (fuel' + 1) ml l₂
    (propagate (fuel' + 1) ml
      (l₁.foldl (propagate (fuel' + 1) ml)
        ((l₁ ++ c :: l₂).foldl (assignTip mb)
          (⟨createNodes (l₁ ++ c :: l₂), [], [], [], 1⟩ : AssignState))) c)
    c.commit hu₂
  have hcond6 : ∀ d ∈ l₁ ++ c :: l₂,
      d.commit ≠ c.commit ∨ (splitParents d.parent).length ≤ 1 := by
    intro d hd
    rcases List.mem_append.mp hd with hd' | hd'
    · exact Or.inl (hu₁ d hd')
    · rcases List.mem_cons.mp hd' with rfl | hd''
      · right
        rw [hpar]
        exact le_refl 1
      · exact Or.inl (hu₂ d hd'')
  refine ⟨{ commit := c.commit, parent := c.parent,
            branchRefs := parseBranchRefs c.refs, index := l₁.length,
            lane := 0, isOnMainLine := true }, ?_, rfl, rfl⟩
  rw [hst2eq]
  exact (foldl_mergeCorrect_preserve ml (l₁ ++ c :: l₂) _ c.commit
    hcond6).trans (hCn.trans hBn)

/-- C5 (amended): on refs strings free of `origin/`-qualified names the two
parsers agree; with such names present they differ (see the counterexample),
as does the color assignment downstream. -/
theorem shouldIGit_C5_parsers_agree (refs : String) (h : noRemoteRefs refs) :
    parseBranchRefs refs = parseBranchRefsColors refs := by
  unfold parseBranchRefs parseBranchRefsColors
  by_cases hg : jsTrim refs = ""
  · simp [hg]
  · simp only [if_neg hg]
    have hmem : ∀ a, a ∈ collectColorBranches (refsTokens refs) [] ↔
        a ∈ collectTreeBranches (refsTokens refs) := by
      intro a
      rw [mem_collectColor_iff (refsTokens refs) (refsTokens_ne_empty refs) h []]
      simp [List.contains]
    have hperm : (collectTreeBranches (refsTokens refs)).dedup.Perm
        (collectColorBranches (refsTokens refs) []).dedup := by
      rw [List.perm_ext_iff_of_nodup (List.nodup_dedup _) (List.nodup_dedup _)]
      intro a
      rw [List.mem_dedup, List.mem_dedup, hmem a]
    exact sortStrings_eq_of_perm hperm

/-- C5 witness: the parsers agree on a remote-free refs string. -/
theorem shouldIGit_C5_witness :
    noRemoteRefs "HEAD -> main, dev" ∧
      parseBranchRefs "HEAD -> main, dev"
        = parseBranchRefsColors "HEAD -> main, dev" :=
  ⟨by decide, shouldIGit_C5_parsers_agree "HEAD -> main, dev" (by decide)⟩

/-- C5 counterexample: on `"origin/feature"` the classifier's parser returns
no branch while the colorer's returns `["feature"]`, and on a concrete
commit list the classifier and colorer give the branch `alpha` different
colors. -/
theorem shouldIGit_C5_cex :
    parseBranchRefs "origin/feature" = [] ∧
    parseBranchRefsColors "origin/feature" = ["feature"] ∧
    (alGet (buildTreeStructure
        [{ commit := "M", parent := "", refs := "main" },
         { commit := "A", parent := "", refs := "alpha" },
         { commit := "B", parent := "", refs := "beta" }]).branchColors
      "alpha").map BranchColor.color = some "#ef4444" ∧
    alGet (createBranchColorMap
        [{ commit := "M", parent := "", refs := "main" },
         { commit := "A", parent := "", refs := "alpha" },
         { commit := "B", parent := "", refs := "beta" }]) "alpha"
      = some "#10b981" := by
  refine ⟨by decide, by decide, by decide, by decide⟩

/-- C6 (amended): classification and coloring are deterministic — repeating
them on the same list gives identical results.  The superset half of the
claim fails (see the counterexample). -/
theorem shouldIGit_C6_idempotent (commits : List RawCommit) :
    buildTreeStructure commits = buildTreeStructure commits ∧
    createBranchColorMap commits = createBranchColorMap commits :=
  ⟨rfl, rfl⟩

/-- C6 counterexample: inserting one commit (`B`/beta) into a list while
keeping the original commits in order moves the previously seen branch
`alpha` from lane 1 / `#ef4444` to lane 2 / `#10b981`. -/
theorem shouldIGit_C6_cex :
    List.Sublist
      [({ commit := "M", parent := "", refs := "main" } : RawCommit),
       { commit := "A", parent := "", refs := "alpha" }]
      [{ commit := "M", parent := "", refs := "main" },
       { commit := "B", parent := "", refs := "beta" },
       { commit := "A", parent := "", refs := "alpha" }] ∧
    alGet (buildTreeStructure
        [{ commit := "M", parent := "", refs := "main" },
         { commit := "A", parent := "", refs := "alpha" }]).branchColors "alpha"
      = some { branch := "alpha", color := "#ef4444", lane := 1 } ∧
    alGet (buildTreeStructure
        [{ commit := "M", parent := "", refs := "main" },
         { commit := "B", parent := "", refs := "beta" },
         { commit := "A", parent := "", refs := "alpha" }]).branchColors "alpha"
      = some { branch := "alpha", color := "#10b981", lane := 2 } := by
  refine ⟨?_, by decide, by decide⟩
  exact List.Sublist.cons₂ _ (List.Sublist.cons _ (List.Sublist.cons₂ _
    List.Sublist.slnil))

/-- C9 (amended): every divergent connector is rendered as the rounded
corner path, whose vertical run always ends at `parentY + dotRadius` (the
lower edge of the target dot) — for downward *and* upward connectors. -/
theorem shouldIGit_C9_corner_endpoint (commits : List RawCommit)
    (rowPositions : List Frac) (headerHeight width : Frac) (p : RenderPath)
    (_hp : p ∈ (buildPaths commits rowPositions headerHeight width).paths)
    (hd : isDivergence p = true) :
    renderConnector p
        = Connector.corner (divergentPath p.fromPos p.toPos) p.color ∧
      (divergentPath p.fromPos p.toPos).endY = p.toPos.y + dotRadius := by
  constructor
  · simp [renderConnector, hd]
  · rfl

/-- C9 witness: the corner-endpoint property evaluated on the concrete
feature-branch divergence connector. -/
theorem shouldIGit_C9_witness :
    renderConnector
        { fromPos := { commit := "m", x := ⟨100, 2⟩, y := ⟨60, 1⟩, lane := 0
                       index := 1, isOnMainLine := true }
          toPos := { commit := "f", x := ⟨132, 2⟩, y := ⟨20, 1⟩, lane := 1
                     index := 0, isOnMainLine := false }
          branch := "feature", color := "#ef4444" }
      = Connector.corner
          (divergentPath
            { commit := "m", x := ⟨100, 2⟩, y := ⟨60, 1⟩, lane := 0
              index := 1, isOnMainLine := true }
            { commit := "f", x := ⟨132, 2⟩, y := ⟨20, 1⟩, lane := 1
              index := 0, isOnMainLine := false }) "#ef4444" ∧
      (divergentPath
        { commit := "m", x := ⟨100, 2⟩, y := ⟨60, 1⟩, lane := 0
          index := 1, isOnMainLine := true }
        { commit := "f", x := ⟨132, 2⟩, y := ⟨20, 1⟩, lane := 1
          index := 0, isOnMainLine := false }).endY
        = (⟨20, 1⟩ : Frac) + dotRadius :=
  shouldIGit_C9_corner_endpoint
    [{ commit := "f", parent := "m", refs := "feature" },
     { commit := "m", parent := "", refs := "main" }]
    [20, 60] 0 100
    { fromPos := { commit := "m", x := ⟨100, 2⟩, y := ⟨60, 1⟩, lane := 0
                   index := 1, isOnMainLine := true }
      toPos := { commit := "f", x := ⟨132, 2⟩, y := ⟨20, 1⟩, lane := 1
                 index := 0, isOnMainLine := false }
      branch := "feature", color := "#ef4444" }
    (by decide) (by decide)

/-- C9 counterexample: a divergence connector whose target dot (y = 20) lies
above its source (y = 60) terminates at `20 + 3.5 = 47/2`, not at the
claimed `20 − 3.5 = 33/2`. -/
theorem shouldIGit_C9_cex :
    ((buildPaths
        [{ commit := "f", parent := "m", refs := "feature" },
         { commit := "m", parent := "", refs := "main" }]
        [20, 60] 0 100).paths.map renderConnector
      = [Connector.corner
          { startX := ⟨100, 2⟩, startY := ⟨60, 1⟩, horizEndX := ⟨250, 4⟩
            arcRadius := ⟨7, 2⟩, sweep := false, cornerX := ⟨132, 2⟩
            verticalStartY := ⟨113, 2⟩, endX := ⟨132, 2⟩
            endY := ⟨47, 2⟩ } "#ef4444"]) ∧
    Frac.req ((⟨20, 1⟩ : Frac) - dotRadius) ⟨33, 2⟩ ∧
    ¬ Frac.req (⟨47, 2⟩ : Frac) ⟨33, 2⟩ := by
  refine ⟨by decide, by decide, by decide⟩

/-- C10: the first element of the parser's output — the name the classifier
uses as a commit's primary branch — is lexicographically least among all the
commit's parsed branch names. -/
theorem shouldIGit_C10_primary_lex_min (refs : String) (h b : String)
    (hh : (parseBranchRefs refs).head? = some h)
    (hb : b ∈ parseBranchRefs refs) : strLeP h b := by
  unfold parseBranchRefs at hh hb
  by_cases hg : jsTrim refs = ""
  · simp [hg] at hh
  · simp only [if_neg hg] at hh hb
    have hsorted : List.Sorted strLeP
        (sortStrings (collectTreeBranches (refsTokens refs)).dedup) :=
      List.sorted_insertionSort strLeP _
    cases hl : sortStrings (collectTreeBranches (refsTokens refs)).dedup with
    | nil =>
      rw [hl] at hh
      simp at hh
    | cons x xs =>
      rw [hl] at hh hb hsorted
      simp only [List.head?_cons, Option.some_inj] at hh
      subst hh
      rcases List.mem_cons.mp hb with rfl | hb'
      · exact strLeP_refl _
      · exact (List.sorted_cons.mp hsorted).1 b hb'

/-- C10 witness: for refs `"b, a"` the primary branch is `"a"`, which is
lexicographically below the other parsed name `"b"`. -/
theorem shouldIGit_C10_witness :
    (parseBranchRefs "b, a").head? = some "a" ∧
      "b" ∈ parseBranchRefs "b, a" ∧ strLeP "a" "b" :=
  ⟨by decide, by decide,
    shouldIGit_C10_primary_lex_min "b, a" "a" "b" (by decide) (by decide)⟩

/-- C4 (amended): the main-line set computed by the backward traversal from
the main tip is closed under present-parent edges without any exclusion: it
crosses into every parent that has a node, even one whose own ref set
carries a different non-main branch name (the source has no
branch-descendant marking at all). -/
theorem shouldIGit_C4_mainline_closure (commits : List RawCommit)
    (c p : String) (hc : c ∈ (buildTreeStructure commits).mainLine)
    (hp : p ∈ parentsPresent (createNodes commits) c) :
    p ∈ (buildTreeStructure commits).mainLine := by
  have hml : (buildTreeStructure commits).mainLine
      = markMainLine (bfsFuel commits) commits (createNodes commits)
        (detectMainBranch commits) := rfl
  rw [hml] at hc ⊢
  exact markMainLine_closed commits (detectMainBranch commits) c p hc hp

/-- C4 witness: the closure property evaluated on a two-commit history whose
feature commit is the main tip's parent. -/
theorem shouldIGit_C4_witness :
    "f" ∈ (buildTreeStructure
      [{ commit := "m", parent := "f", refs := "main" },
       { commit := "f", parent := "", refs := "feature" }]).mainLine :=
  shouldIGit_C4_mainline_closure
    [{ commit := "m", parent := "f", refs := "main" },
     { commit := "f", parent := "", refs := "feature" }]
    "m" "f" (by decide) (by decide)

/-- C4 counterexample: with main branch `"main"` fixed, the commit `f` —
whose own parsed ref set is `["feature"]`, a non-main branch name — is
nevertheless in the computed main-line set, because the backward traversal
(GitTree.tsx lines 136-149) never checks the refs of the commits it
crosses. -/
theorem shouldIGit_C4_cex :
    detectMainBranch
        [{ commit := "m", parent := "f", refs := "main" },
         { commit := "f", parent := "", refs := "feature" }] = some "main" ∧
    parseBranchRefs "feature" = ["feature"] ∧
    "f" ∈ (buildTreeStructure
        [{ commit := "m", parent := "f", refs := "main" },
         { commit := "f", parent := "", refs := "feature" }]).mainLine := by
  refine ⟨by decide, by decide, by decide⟩

/-- C7: the classifier and path builder are fuel stable — running every
traversal with any fuel at least `bfsFuel` (`2N + 3` for `N` commits, well
inside the claimed `O(N·(N+E))` budget) gives the same answer as the
canonical run, on every finite input including cyclic or dangling parent
graphs; in the embedding this is exactly termination of the visited-set
traversals within the stated bound. -/
theorem shouldIGit_C7_traversals_fuel_stable (commits : List RawCommit)
    (f : Nat) (hf : bfsFuel commits ≤ f) :
    buildTreeStructureFuel f commits = buildTreeStructure commits ∧
    ∀ (rows : List Frac) (hh w : Frac),
      buildPathsFuel f commits rows hh w = buildPaths commits rows hh w :=
  ⟨buildTree_fuel_congr commits f (bfsFuel commits) hf (le_refl _),
   fun rows hh w =>
     buildPaths_fuel_congr commits f (bfsFuel commits) hf (le_refl _) rows hh w⟩

/-- C7 witness: fuel stability evaluated on a two-commit cyclic history
(`a` and `b` are each other's parent) at an inflated fuel. -/
theorem shouldIGit_C7_witness :
    buildTreeStructureFuel 100
        [{ commit := "a", parent := "b", refs := "main" },
         { commit := "b", parent := "a", refs := "" }]
      = buildTreeStructure
        [{ commit := "a", parent := "b", refs := "main" },
         { commit := "b", parent := "a", refs := "" }] ∧
    buildPathsFuel 100
        [{ commit := "a", parent := "b", refs := "main" },
         { commit := "b", parent := "a", refs := "" }] [20, 60] 0 100
      = buildPaths
        [{ commit := "a", parent := "b", refs := "main" },
         { commit := "b", parent := "a", refs := "" }] [20, 60] 0 100 :=
  ⟨(shouldIGit_C7_traversals_fuel_stable
      [{ commit := "a", parent := "b", refs := "main" },
       { commit := "b", parent := "a", refs := "" }] 100 (by decide)).1,
   (shouldIGit_C7_traversals_fuel_stable
      [{ commit := "a", parent := "b", refs := "main" },
       { commit := "b", parent := "a", refs := "" }] 100 (by decide)).2
     [20, 60] 0 100⟩



/-- C1 (amended): main-branch detection scans the commit list in order and
stops at the first commit whose parsed ref set contains `"main"` or
`"master"`, fixing the main branch to `"main"` when that commit carries it
and to `"master"` otherwise; when no commit carries either name, it falls
back to the first branch name of the first commit (null when the first
commit has no branch refs) — it does not report an explicit null in that
case. -/
theorem shouldIGit_C1_mainBranch_detection (commits : List RawCommit) :
    detectMainBranch commits =
      match commits.find? (fun c => (parseBranchRefs c.refs).contains "main"
          || (parseBranchRefs c.refs).contains "master") with
      | some c => some (if (parseBranchRefs c.refs).contains "main" then "main"
          else "master")
      | none => commits.head?.bind (fun c => (parseBranchRefs c.refs).head?) := by
  unfold detectMainBranch
  rw [detectMainScan_eq_find]
  cases hfind : commits.find? (fun c => (parseBranchRefs c.refs).contains "main"
      || (parseBranchRefs c.refs).contains "master") with
  | some c => rfl
  | none =>
    cases commits with
    | nil => rfl
    | cons c rest => rfl

/-- C1 counterexample: a list whose only commit carries the single branch
name `"feature"` (neither `"main"` nor `"master"`), for which the claim
demands an explicit null, yet the code fixes the main branch to
`"feature"`. -/
theorem shouldIGit_C1_cex :
    detectMainBranch [{ commit := "a", parent := "", refs := "feature" }]
        = some "feature" ∧
      parseBranchRefs "feature" = ["feature"] := by
  constructor
  · decide
  · decide

/-- C2: in the classifier's output, a commit's lane is `0` exactly when the
commit is classified as on the main line. -/
theorem shouldIGit_C2_lane_zero_iff_mainline (commits : List RawCommit)
    (k : String) (n : CommitNode)
    (h : alGet (buildTreeStructure commits).nodes k = some n) :
    n.lane = 0 ↔ n.isOnMainLine = true :=
  lane_iff_aux (detectMainBranch commits) (bfsFuel commits)
    (markMainLine (bfsFuel commits) commits (createNodes commits)
      (detectMainBranch commits))
    commits (createNodes commits)
    (fun _ hk' => alKeys_createNodes_covers hk') k n h

/-- C2 witness: the lane/main-line equivalence evaluated on a concrete
two-commit history. -/
theorem shouldIGit_C2_witness :
    alGet (buildTreeStructure
        [{ commit := "m", parent := "f", refs := "main" },
         { commit := "f", parent := "", refs := "feature" }]).nodes "f"
      = some { commit := "f", parent := "", branchRefs := ["feature"]
               index := 1, lane := 1, isOnMainLine := false } ∧
    (({ commit := "f", parent := "", branchRefs := ["feature"]
        index := 1, lane := 1, isOnMainLine := false } : CommitNode).lane = 0 ↔
      ({ commit := "f", parent := "", branchRefs := ["feature"]
         index := 1, lane := 1, isOnMainLine := false } : CommitNode).isOnMainLine
        = true) :=
  ⟨by decide,
    shouldIGit_C2_lane_zero_iff_mainline
      [{ commit := "m", parent := "f", refs := "main" },
       { commit := "f", parent := "", refs := "feature" }] "f"
      { commit := "f", parent := "", branchRefs := ["feature"]
        index := 1, lane := 1, isOnMainLine := false } (by decide)⟩

/-- C3: a commit with more than one parent, at least one of which lies in
the computed main-line set, ends the classification at lane 0 on the main
line. -/
theorem shouldIGit_C3_merge_forced_mainline (commits : List RawCommit)
    (c : RawCommit) (hc : c ∈ commits)
    (hp : 1 < (splitParents c.parent).length)
    (hm : ∃ p ∈ splitParents c.parent,
      p ∈ (buildTreeStructure commits).mainLine) :
    ∃ n, alGet (buildTreeStructure commits).nodes c.commit = some n ∧
      n.lane = 0 ∧ n.isOnMainLine = true := by
  have hcond : ((splitParents c.parent).length > 1
      && (splitParents c.parent).any (fun p =>
        (markMainLine (bfsFuel commits) commits (createNodes commits)
          (detectMainBranch commits)).contains p)) = true := by
    rw [Bool.and_eq_true]
    refine ⟨decide_eq_true hp, ?_⟩
    rw [List.any_eq_true]
    rcases hm with ⟨p, hpmem, hpml⟩
    refine ⟨p, hpmem, ?_⟩
    show List.elem p (markMainLine (bfsFuel commits) commits
      (createNodes commits) (detectMainBranch commits)) = true
    exact List.elem_iff.mpr hpml
  have hkey : c.commit ∈ alKeys ((commits.foldl
      (propagate (bfsFuel commits)
        (markMainLine (bfsFuel commits) commits (createNodes commits)
          (detectMainBranch commits)))
      (commits.foldl (assignTip (detectMainBranch commits))
        (⟨createNodes commits, [], [], [], 1⟩ : AssignState)))).nodes := by
    rw [alKeys_nodes_phase12]
    exact mem_alKeys_createNodes hc
  exact mergeCorrect_forces _ commits _ c hc hcond hkey

/-- C3 witness: the merge-correction scenario of the spec — `M0` merges the
`feature` branch tip `C3` into main and is forced to lane 0. -/
theorem shouldIGit_C3_witness :
    ∃ n, alGet (buildTreeStructure
        [{ commit := "M0", parent := "M1 C3", refs := "main" },
         { commit := "C3", parent := "C2", refs := "feature" },
         { commit := "C2", parent := "C1", refs := "" },
         { commit := "C1", parent := "M1", refs := "" },
         { commit := "M1", parent := "", refs := "" }]).nodes "M0" = some n ∧
      n.lane = 0 ∧ n.isOnMainLine = true :=
  shouldIGit_C3_merge_forced_mainline _
    { commit := "M0", parent := "M1 C3", refs := "main" }
    (by decide) (by decide) (by decide)

/-- C8: a commit whose sole parent id appears nowhere in the commit list is
still classified — its node defaults to lane 0 on the main line (stated for
a commit carrying no branch refs, so that the tip rule does not pre-assign a
lane) — and the path builder emits no connector whose endpoint references
the missing parent.  Both `buildTreeStructure` and `buildPaths` are total
functions of the embedding, so neither operation throws. -/
theorem shouldIGit_C8_dangling_parent (l₁ l₂ : List RawCommit)
    (c : RawCommit) (p : String)
    (hu₁ : ∀ d ∈ l₁, d.commit ≠ c.commit)
    (hu₂ : ∀ d ∈ l₂, d.commit ≠ c.commit)
    (hrefs : parseBranchRefs c.refs = [])
    (hpar : splitParents c.parent = [p])
    (hdang : ∀ d ∈ l₁ ++ c :: l₂, d.commit ≠ p) :
    (∃ n, alGet (buildTreeStructure (l₁ ++ c :: l₂)).nodes c.commit = some n ∧
        n.lane = 0 ∧ n.isOnMainLine = true) ∧
    ∀ (rows : List Frac) (hh w : Frac),
      ∀ e ∈ (buildPaths (l₁ ++ c :: l₂) rows hh w).paths,
        e.fromPos.commit ≠ p ∧ e.toPos.commit ≠ p := by
  constructor
  · exact dangling_aux (detectMainBranch (l₁ ++ c :: l₂))
      (bfsFuel (l₁ ++ c :: l₂))
      (markMainLine (bfsFuel (l₁ ++ c :: l₂)) (l₁ ++ c :: l₂)
        (createNodes (l₁ ++ c :: l₂)) (detectMainBranch (l₁ ++ c :: l₂)))
      l₁ l₂ c p (by simp only [bfsFuel]; omega) hu₁ hu₂ hrefs hpar hdang
  · intro rows hh w e he
    have hpne : p ≠ "" := splitParents_ne_empty c.parent p
      (by rw [hpar]; exact List.mem_cons_self p [])
    have h := buildPaths_endpoints (l₁ ++ c :: l₂) rows hh w e he
    constructor
    · rcases h.1 with h' | ⟨d, hd, h'⟩
      · intro hc
        rw [h'] at hc
        exact hpne hc.symm
      · intro hc
        rw [h'] at hc
        exact hdang d hd hc
    · rcases h.2 with h' | ⟨d, hd, h'⟩
      · intro hc
        rw [h'] at hc
        exact hpne hc.symm
      · intro hc
        rw [h'] at hc
        exact hdang d hd hc

/-- C8 witness: commit `a` has the dangling parent `zz`; it is classified at
lane 0 on the main line, and the single connector of the rendered tree (from
`b` down to `a`) does not reference `zz` at either endpoint. -/
theorem shouldIGit_C8_witness :
    (∃ n, alGet (buildTreeStructure
        [⟨"a", "zz", ""⟩, ⟨"b", "a", "main"⟩]).nodes "a" = some n ∧
      n.lane = 0 ∧ n.isOnMainLine = true) ∧
    ((⟨⟨"b", ⟨100, 2⟩, ⟨60, 1⟩, 0, 1, true⟩,
        ⟨"a", ⟨100, 2⟩, ⟨20, 1⟩, 0, 0, true⟩,
        "main", "#3b82f6"⟩ : RenderPath).fromPos.commit ≠ "zz" ∧
      ((⟨⟨"b", ⟨100, 2⟩, ⟨60, 1⟩, 0, 1, true⟩,
        ⟨"a", ⟨100, 2⟩, ⟨20, 1⟩, 0, 0, true⟩,
        "main", "#3b82f6"⟩ : RenderPath)).toPos.commit ≠ "zz") :=
  ⟨(shouldIGit_C8_dangling_parent [] [⟨"b", "a", "main"⟩] ⟨"a", "zz", ""⟩ "zz"
      (by decide) (by decide) (by decide) (by decide) (by decide)).1,
   (shouldIGit_C8_dangling_parent [] [⟨"b", "a", "main"⟩] ⟨"a", "zz", ""⟩ "zz"
      (by decide) (by decide) (by decide) (by decide) (by decide)).2
     [20, 60] 0 100
     (⟨⟨"b", ⟨100, 2⟩, ⟨60, 1⟩, 0, 1, true⟩,
        ⟨"a", ⟨100, 2⟩, ⟨20, 1⟩, 0, 0, true⟩,
        "main", "#3b82f6"⟩ : RenderPath)
     (by decide)⟩

end ShouldIGit
